import Mathlib

/-!
# Verification of the `exploded` grid engine

Shallow embedding of the simulation core of the `exploded` falling-block
puzzle (Rust), together with proofs of the specified properties.

Conventions of the embedding:
* Rust `usize` becomes `Nat` (no arithmetic in the engine can overflow a
  64-bit counter in any reachable state; all values stay small).
* The const-generic parameters `WIDTH`/`HEIGHT` of `Board<W, H>` become
  explicit `Nat` arguments of the operations.
* A grid `[[Option<Cell>; HEIGHT]; WIDTH]` becomes a `List (List (Option Cell))`
  (outer list: columns, indexed by `x`; inner lists: slots, indexed by `y`).
  Well-formedness (outer length `W`, inner lengths `H`) is a hypothesis of
  the theorems that need it, exactly as the Rust types enforce it.
* The imperative BFS loop of `Board::remove` is a fueled recursion: each
  loop iteration consumes one unit of fuel, and the chosen fuel is proved
  sufficient (the Rust loop terminates by the same measure argument).
-/

namespace Exploded

/-- `CellType` from `src/board.rs`. -/
inductive CellType where
  | Tile : CellType
  | Bomb : CellType
deriving DecidableEq, Repr

/-- `Cell` from `src/board.rs`: a per-board-unique id plus a kind. -/
structure Cell where
  id : Nat
  cell_type : CellType
deriving DecidableEq, Repr

/-- One removed-cell record of `Board::remove`:
the Rust tuple `(id, dist, x, y, cell_type)`. -/
structure RemovedCell where
  id : Nat
  dist : Nat
  x : Nat
  y : Nat
  cell_type : CellType
deriving DecidableEq, Repr

/-- `adjacent_cells` from `src/board.rs`: the eight neighbour offsets in the
source's iteration order, clipped to the grid (negative coordinates are
dropped by the `try_into`, too-large ones by the final `filter`). -/
def adjacent_cells (x y width height : Nat) : List (Nat × Nat) :=
  ([(-1, -1), (-1, 0), (-1, 1), (0, -1), (0, 1), (1, -1), (1, 0), (1, 1)] :
      List (Int × Int)).filterMap
    (fun v =>
      let nx : Int := (x : Int) + v.1
      let ny : Int := (y : Int) + v.2
      if 0 ≤ nx ∧ 0 ≤ ny ∧ nx.toNat < width ∧ ny.toNat < height then
        some (nx.toNat, ny.toNat)
      else none)

theorem adjacent_cells_length_le (x y w h : Nat) :
    (adjacent_cells x y w h).length ≤ 8 := by
  classical
  have := List.length_filterMap_le
    (fun v : Int × Int =>
      let nx : Int := (x : Int) + v.1
      let ny : Int := (y : Int) + v.2
      if 0 ≤ nx ∧ 0 ≤ ny ∧ nx.toNat < w ∧ ny.toNat < h then
        some (nx.toNat, ny.toNat)
      else none)
    [(-1, -1), (-1, 0), (-1, 1), (0, -1), (0, 1), (1, -1), (1, 0), (1, 1)]
  simpa [adjacent_cells] using this

/-- A grid of slots: columns of optional cells (`cells` field of `Board`). -/
abbrev Grid := List (List (Option Cell))

/-- Read slot `(x, y)`; out-of-bounds coordinates read as empty, matching the
source's `self.cells.get(x).and_then(|c| c.get(y))` chain. -/
def getCell (g : Grid) (x y : Nat) : Option Cell :=
  ((g[x]?).bind (fun col => col[y]?)).join

/-- Write slot `(x, y)`; out-of-bounds writes are no-ops, matching
`get_mut`/`get_mut` in the source. -/
def setCell (g : Grid) (x y : Nat) (v : Option Cell) : Grid :=
  match g[x]? with
  | none => g
  | some col => g.set x (col.set y v)

/-- Number of occupied slots of a column. -/
def colOcc (col : List (Option Cell)) : Nat := (col.filterMap id).length

/-- Number of occupied slots of a grid. -/
def occupied (g : Grid) : Nat := (g.map colOcc).sum

/-- Total number of slots of a grid. -/
def gridSize (g : Grid) : Nat := (g.map List.length).sum

/-- The loop body of `Board::remove` from `src/board.rs`: pop the front of
the work queue, `take` the slot, record the cell, and if it was a bomb
enqueue its eight clipped neighbours at distance + 1.  One unit of fuel is
one loop iteration; `Board.remove` supplies provably sufficient fuel. -/
def removeLoop (W H : Nat) : Nat → List (Nat × Nat × Nat) → Grid →
    List RemovedCell × Grid
  | 0, _, g => ([], g)
  | _ + 1, [], g => ([], g)
  | fuel + 1, (x, y, d) :: rest, g =>
    match getCell g x y with
    | none => removeLoop W H fuel rest g
    | some c =>
      let g' := setCell g x y none
      let queue :=
        if c.cell_type = CellType.Bomb then
          rest ++ (adjacent_cells x y W H).map (fun p => (p.1, p.2, d + 1))
        else rest
      let t := removeLoop W H fuel queue g'
      (⟨c.id, d, x, y, c.cell_type⟩ :: t.1, t.2)

/-- `Board` from `src/board.rs` (the const generics `WIDTH`/`HEIGHT` are
passed to the operations instead). -/
structure Board where
  cells : Grid
  generated_cells : Nat
deriving DecidableEq, Repr

/-- `Board::new`. -/
def Board.new (W H : Nat) : Board :=
  ⟨List.replicate W (List.replicate H none), 0⟩

/-- `Board::remove`: breadth-first chain removal starting at `(x, y)`.
Returns the removed-cell records and the new board.  The fuel
`9 * gridSize + 9` dominates the loop measure `9 * occupied + queue length`
at every iteration (proved below), so the loop never runs dry. -/
def Board.remove (W H : Nat) (b : Board) (x y : Nat) :
    List RemovedCell × Board :=
  let t := removeLoop W H (9 * gridSize b.cells + 9) [(x, y, 0)] b.cells
  (t.1, { b with cells := t.2 })

/-!
## Grid lemmas
-/

theorem colOcc_nil : colOcc [] = 0 := rfl

theorem colOcc_cons (oc : Option Cell) (rest : List (Option Cell)) :
    colOcc (oc :: rest) = (if oc.isSome then 1 else 0) + colOcc rest := by
  cases oc <;> simp [colOcc, List.filterMap_cons, Nat.add_comm]

theorem colOcc_set_none (col : List (Option Cell)) (y : Nat) (c : Cell)
    (h : col[y]? = some (some c)) :
    colOcc (col.set y none) + 1 = colOcc col := by
  induction col generalizing y with
  | nil => simp at h
  | cons oc rest ih =>
    cases y with
    | zero =>
      simp only [List.getElem?_cons_zero, Option.some.injEq] at h
      subst h
      simp [colOcc_cons, List.set]
      omega
    | succ y' =>
      simp only [List.getElem?_cons_succ] at h
      have := ih y' h
      simp [colOcc_cons, List.set, ← this]
      omega

theorem occupied_cons (col : List (Option Cell)) (g : Grid) :
    occupied (col :: g) = colOcc col + occupied g := by
  simp [occupied]

theorem occupied_setCell (g : Grid) (x y : Nat) (c : Cell)
    (h : getCell g x y = some c) :
    occupied (setCell g x y none) + 1 = occupied g := by
  induction g generalizing x with
  | nil => simp [getCell] at h
  | cons col rest ih =>
    cases x with
    | zero =>
      simp only [getCell, List.getElem?_cons_zero, Option.bind_some] at h
      have hcol : col[y]? = some (some c) := by
        cases hcy : col[y]? with
        | none => simp [hcy] at h
        | some oc =>
          cases oc with
          | none => simp [hcy] at h
          | some c' => simp_all
      simp only [setCell, List.getElem?_cons_zero, List.set]
      rw [occupied_cons, occupied_cons, Nat.add_right_comm,
        colOcc_set_none col y c hcol]
    | succ x' =>
      simp only [getCell, List.getElem?_cons_succ] at h
      have hrec := ih x' h
      simp only [setCell, List.getElem?_cons_succ] at hrec ⊢
      cases hx : rest[x']? with
      | none => simp [getCell, hx] at h
      | some col' =>
        simp only [hx, List.set] at hrec ⊢
        rw [occupied_cons, occupied_cons]
        omega

theorem colOcc_le_length (col : List (Option Cell)) : colOcc col ≤ col.length := by
  simpa [colOcc] using List.length_filterMap_le id col

theorem occupied_le_gridSize (g : Grid) : occupied g ≤ gridSize g := by
  induction g with
  | nil => simp [occupied, gridSize]
  | cons col rest ih =>
    simp only [occupied, gridSize, List.map_cons, List.sum_cons] at ih ⊢
    exact Nat.add_le_add (colOcc_le_length col) ih

theorem getCell_setCell_self (g : Grid) (x y : Nat) (c : Cell)
    (h : getCell g x y = some c) :
    getCell (setCell g x y none) x y = none := by
  cases hx : g[x]? with
  | none => simp [getCell, hx] at h
  | some col =>
    have hcol : col[y]? = some (some c) := by
      simp only [getCell, hx, Option.bind_some] at h
      cases hcy : col[y]? with
      | none => simp [hcy] at h
      | some oc => cases oc with
        | none => simp [hcy] at h
        | some c' => simp_all
    have hylt : y < col.length := by
      by_contra hge
      rw [List.getElem?_eq_none (Nat.le_of_not_lt hge)] at hcol
      exact Option.noConfusion hcol
    have hxlt : x < g.length := by
      by_contra hge
      rw [List.getElem?_eq_none (Nat.le_of_not_lt hge)] at hx
      exact Option.noConfusion hx
    simp only [setCell, hx, getCell]
    rw [List.getElem?_set_self (by simpa using hxlt)]
    simp [List.getElem?_set_self hylt]

theorem getCell_setCell_ne (g : Grid) (x y x' y' : Nat) (v : Option Cell)
    (h : x' ≠ x ∨ y' ≠ y) :
    getCell (setCell g x y v) x' y' = getCell g x' y' := by
  cases hx : g[x]? with
  | none => simp [setCell, hx]
  | some col =>
    simp only [setCell, hx, getCell]
    rcases h with hxx | hyy
    · rw [List.getElem?_set_ne (fun he => hxx he.symm)]
    · rcases eq_or_ne x' x with rfl | hne
      · have hxlt : x' < g.length := by
          by_contra hge
          rw [List.getElem?_eq_none (Nat.le_of_not_lt hge)] at hx
          exact Option.noConfusion hx
        rw [List.getElem?_set_self (by simpa using hxlt)]
        simp [hx, List.getElem?_set_ne (fun he => hyy he.symm)]
      · rw [List.getElem?_set_ne (fun he => hne he.symm)]

theorem list_set_self {α : Type} (l : List α) (i : Nat) (a : α)
    (h : l[i]? = some a) : l.set i a = l := by
  induction l generalizing i with
  | nil => simp at h
  | cons b rest ih =>
    cases i with
    | zero => simp_all
    | succ j => simp_all [List.set]

theorem setCell_gridSize (g : Grid) (x y : Nat) (v : Option Cell) :
    gridSize (setCell g x y v) = gridSize g := by
  cases hx : g[x]? with
  | none => simp [setCell, hx]
  | some col =>
    simp only [setCell, hx, gridSize, List.map_set, List.length_set]
    rw [list_set_self]
    simp [hx]

/-!
## Reference breadth-first flood fill

`processFrontier`/`bfsRounds` below are the layered (round-by-round)
description of the chain reaction, written from the specification's words:
the targeted cell is removed at distance 0; whenever a removed cell is a
`Bomb`, its eight in-bounds neighbours form the next frontier at distance
plus one; `Tile` cells are removed but never propagate; an empty slot
short-circuits (removal is the visited marker).  `d` is the BFS layer.
The implementation's single work queue is proved equivalent to it.
-/

/-- Process one whole frontier at blast distance `d`: remove each occupied
frontier slot in order (left to right), recording it, and collect the next
frontier (the clipped neighbours of removed bombs, in order). -/
def processFrontier (W H d : Nat) (g : Grid) :
    List (Nat × Nat) → List RemovedCell × List (Nat × Nat) × Grid
  | [] => ([], [], g)
  | (x, y) :: ps =>
    match getCell g x y with
    | none => processFrontier W H d g ps
    | some c =>
      let g' := setCell g x y none
      let t := processFrontier W H d g' ps
      (⟨c.id, d, x, y, c.cell_type⟩ :: t.1,
       (if c.cell_type = CellType.Bomb then adjacent_cells x y W H else []) ++ t.2.1,
       t.2.2)

/-- Run the flood fill round by round; the round counter `d` is the BFS
layer at which cells of that round are removed. -/
def bfsRounds (W H : Nat) : Nat → Grid → List (Nat × Nat) → Nat →
    List RemovedCell × Grid
  | 0, g, _, _ => ([], g)
  | _ + 1, g, [], _ => ([], g)
  | fuel + 1, g, p :: ps, d =>
    let t := processFrontier W H d g (p :: ps)
    let t2 := bfsRounds W H fuel t.2.2 t.2.1 (d + 1)
    (t.1 ++ t2.1, t2.2)

/-- The layered flood-fill reference for a trigger at `(x, y)`:
round fuel `gridSize g + 1` is enough because every round with a nonempty
produced frontier removed at least one cell. -/
def bfsSpec (W H : Nat) (g : Grid) (x y : Nat) : List RemovedCell × Grid :=
  bfsRounds W H (gridSize g + 1) g [(x, y)] 0

/-!
## Equivalence of the work-queue loop with the layered flood fill
-/

theorem removeLoop_nil (W H fuel : Nat) (g : Grid) :
    removeLoop W H fuel [] g = ([], g) := by
  cases fuel <;> rfl

theorem removeLoop_frontier (W H d : Nat) (F : List (Nat × Nat)) :
    ∀ (N : List (Nat × Nat × Nat)) (g : Grid) (qfuel : Nat),
      removeLoop W H (qfuel + F.length) (F.map (fun p => (p.1, p.2, d)) ++ N) g =
        ((processFrontier W H d g F).1 ++
            (removeLoop W H qfuel
              (N ++ (processFrontier W H d g F).2.1.map (fun p => (p.1, p.2, d + 1)))
              (processFrontier W H d g F).2.2).1,
          (removeLoop W H qfuel
            (N ++ (processFrontier W H d g F).2.1.map (fun p => (p.1, p.2, d + 1)))
            (processFrontier W H d g F).2.2).2) := by
  induction F with
  | nil =>
    intro N g qfuel
    simp [processFrontier]
  | cons p ps ih =>
    intro N g qfuel
    obtain ⟨x, y⟩ := p
    have harith : qfuel + (ps.length + 1) = (qfuel + ps.length) + 1 := rfl
    simp only [List.length_cons, harith, List.map_cons, List.cons_append]
    cases hc : getCell g x y with
    | none =>
      simp only [removeLoop, hc, processFrontier]
      exact ih N g qfuel
    | some c =>
      simp only [removeLoop, hc, processFrontier]
      by_cases hb : c.cell_type = CellType.Bomb
      · simp only [hb, if_pos rfl, reduceIte]
        rw [List.append_assoc]
        rw [ih (N ++ (adjacent_cells x y W H).map (fun p => (p.1, p.2, d + 1)))
          (setCell g x y none) qfuel]
        simp [List.append_assoc]
      · simp only [hb, reduceIte]
        rw [ih N (setCell g x y none) qfuel]
        simp

theorem processFrontier_occupied (W H d : Nat) (F : List (Nat × Nat)) :
    ∀ g : Grid,
      occupied (processFrontier W H d g F).2.2 +
        (processFrontier W H d g F).1.length = occupied g := by
  induction F with
  | nil => intro g; simp [processFrontier]
  | cons p ps ih =>
    intro g
    obtain ⟨x, y⟩ := p
    cases hc : getCell g x y with
    | none => simp only [processFrontier, hc]; exact ih g
    | some c =>
      simp only [processFrontier, hc, List.length_cons]
      have h1 := ih (setCell g x y none)
      have h2 := occupied_setCell g x y c hc
      omega

theorem processFrontier_next_le (W H d : Nat) (F : List (Nat × Nat)) :
    ∀ g : Grid,
      (processFrontier W H d g F).2.1.length ≤
        8 * (processFrontier W H d g F).1.length := by
  induction F with
  | nil => intro g; simp [processFrontier]
  | cons p ps ih =>
    intro g
    obtain ⟨x, y⟩ := p
    cases hc : getCell g x y with
    | none => simp only [processFrontier, hc]; exact ih g
    | some c =>
      simp only [processFrontier, hc, List.length_cons, List.length_append]
      have h1 := ih (setCell g x y none)
      have h2 : (if c.cell_type = CellType.Bomb then adjacent_cells x y W H
          else []).length ≤ 8 := by
        split
        · exact adjacent_cells_length_le x y W H
        · simp
      omega

theorem removeLoop_eq_bfsRounds (W H : Nat) (rfuel : Nat) :
    ∀ (g : Grid) (F : List (Nat × Nat)) (d qfuel : Nat),
      occupied g + 1 ≤ rfuel → 9 * occupied g + F.length ≤ qfuel →
      removeLoop W H qfuel (F.map (fun p => (p.1, p.2, d))) g =
        bfsRounds W H rfuel g F d := by
  induction rfuel with
  | zero => intro g F d qfuel h1 h2; omega
  | succ rf ih =>
    intro g F d qfuel h1 h2
    cases F with
    | nil => simp [bfsRounds, removeLoop_nil]
    | cons p ps =>
      have hq : qfuel = (qfuel - (p :: ps).length) + (p :: ps).length := by
        have hle : (p :: ps).length ≤ qfuel := le_trans (by omega) h2
        omega
      rw [hq, ← List.append_nil ((p :: ps).map fun p => (p.1, p.2, d))]
      rw [removeLoop_frontier W H d (p :: ps) [] g (qfuel - (p :: ps).length)]
      simp only [List.nil_append]
      have key : removeLoop W H (qfuel - (p :: ps).length)
          ((processFrontier W H d g (p :: ps)).2.1.map (fun p => (p.1, p.2, d + 1)))
          (processFrontier W H d g (p :: ps)).2.2 =
          bfsRounds W H rf (processFrontier W H d g (p :: ps)).2.2
            (processFrontier W H d g (p :: ps)).2.1 (d + 1) := by
        cases hnxt : (processFrontier W H d g (p :: ps)).2.1 with
        | nil =>
          simp only [List.map_nil, removeLoop_nil]
          cases rf <;> simp [bfsRounds]
        | cons q qs =>
          have hocc := processFrontier_occupied W H d (p :: ps) g
          have hle := processFrontier_next_le W H d (p :: ps) g
          have hres : 1 ≤ (processFrontier W H d g (p :: ps)).1.length := by
            rw [hnxt] at hle
            simp only [List.length_cons] at hle
            omega
          rw [← hnxt]
          exact ih (processFrontier W H d g (p :: ps)).2.2
            (processFrontier W H d g (p :: ps)).2.1 (d + 1)
            (qfuel - (p :: ps).length) (by omega) (by omega)
      rw [key]
      rfl

/-- Invariants of the removal loop: the grid only ever loses cells, every
reported record describes a cell of the starting grid and its slot ends up
empty, no slot is reported twice, and unreported slots are untouched. -/
theorem removeLoop_inv (W H : Nat) (fuel : Nat) :
    ∀ (q : List (Nat × Nat × Nat)) (g : Grid),
      (∀ x y, getCell (removeLoop W H fuel q g).2 x y = getCell g x y ∨
        getCell (removeLoop W H fuel q g).2 x y = none) ∧
      (∀ t ∈ (removeLoop W H fuel q g).1,
        getCell g t.x t.y = some ⟨t.id, t.cell_type⟩ ∧
        getCell (removeLoop W H fuel q g).2 t.x t.y = none) ∧
      ((removeLoop W H fuel q g).1.map (fun t => (t.x, t.y))).Nodup ∧
      (∀ x y, (∀ t ∈ (removeLoop W H fuel q g).1, ¬(t.x = x ∧ t.y = y)) →
        getCell (removeLoop W H fuel q g).2 x y = getCell g x y) := by
  induction fuel with
  | zero =>
    intro q g
    exact ⟨fun x y => Or.inl rfl, by simp [removeLoop], by simp [removeLoop],
      fun x y _ => rfl⟩
  | succ f ih =>
    intro q g
    cases q with
    | nil =>
      refine ⟨fun x y => ?_, ?_, ?_, fun x y _ => ?_⟩ <;>
        simp [removeLoop_nil]
    | cons e rest =>
      obtain ⟨x, y, d⟩ := e
      cases hc : getCell g x y with
      | none =>
        have hr : removeLoop W H (f + 1) ((x, y, d) :: rest) g =
            removeLoop W H f rest g := by
          simp [removeLoop, hc]
        rw [hr]
        exact ih rest g
      | some c =>
        have hg'none : getCell (setCell g x y none) x y = none :=
          getCell_setCell_self g x y c hc
        have hr : removeLoop W H (f + 1) ((x, y, d) :: rest) g =
            (⟨c.id, d, x, y, c.cell_type⟩ ::
              (removeLoop W H f
                (if c.cell_type = CellType.Bomb then
                  rest ++ (adjacent_cells x y W H).map (fun p => (p.1, p.2, d + 1))
                else rest) (setCell g x y none)).1,
             (removeLoop W H f
                (if c.cell_type = CellType.Bomb then
                  rest ++ (adjacent_cells x y W H).map (fun p => (p.1, p.2, d + 1))
                else rest) (setCell g x y none)).2) := by
          simp [removeLoop, hc]
        obtain ⟨ih1, ih2, ih3, ih4⟩ := ih
          (if c.cell_type = CellType.Bomb then
            rest ++ (adjacent_cells x y W H).map (fun p => (p.1, p.2, d + 1))
          else rest) (setCell g x y none)
        rw [hr]
        refine ⟨fun a b => ?_, ?_, ?_, fun a b hab => ?_⟩
        · rcases ih1 a b with h | h
          · by_cases hxy : a = x ∧ b = y
            · obtain ⟨rfl, rfl⟩ := hxy
              right; rw [h, hg'none]
            · left
              rw [h, getCell_setCell_ne]
              rcases Decidable.not_and_iff_or_not.mp hxy with h' | h'
              · exact Or.inl h'
              · exact Or.inr h'
          · right; exact h
        · intro t ht
          rcases List.mem_cons.mp ht with rfl | ht'
          · refine ⟨hc, ?_⟩
            rcases ih1 x y with h | h
            · rw [h, hg'none]
            · exact h
          · obtain ⟨h1, h2⟩ := ih2 t ht'
            refine ⟨?_, h2⟩
            by_cases hxy : t.x = x ∧ t.y = y
            · obtain ⟨hx', hy'⟩ := hxy
              rw [hx', hy', hg'none] at h1
              exact Option.noConfusion h1
            · rw [getCell_setCell_ne] at h1
              · exact h1
              · rcases Decidable.not_and_iff_or_not.mp hxy with h' | h'
                · exact Or.inl h'
                · exact Or.inr h'
        · simp only [List.map_cons, List.nodup_cons]
          refine ⟨?_, ih3⟩
          intro hmem
          rcases List.mem_map.mp hmem with ⟨t, ht, hteq⟩
          obtain ⟨h1, _⟩ := ih2 t ht
          have hx' : t.x = x := congrArg Prod.fst hteq
          have hy' : t.y = y := congrArg Prod.snd hteq
          rw [hx', hy', hg'none] at h1
          exact Option.noConfusion h1
        · have hhead := hab ⟨c.id, d, x, y, c.cell_type⟩ (List.mem_cons_self _ _)
          have htail : ∀ t ∈ (removeLoop W H f
              (if c.cell_type = CellType.Bomb then
                rest ++ (adjacent_cells x y W H).map (fun p => (p.1, p.2, d + 1))
              else rest) (setCell g x y none)).1, ¬(t.x = a ∧ t.y = b) :=
            fun t ht => hab t (List.mem_cons_of_mem _ ht)
          rw [ih4 a b htail, getCell_setCell_ne]
          simp only [not_and] at hhead
          by_cases hax : a = x
          · subst hax
            right
            intro hb
            exact hhead rfl hb.symm
          · exact Or.inl hax

/-- C1: `Board::remove` performs exactly the breadth-first flood fill of the
specification.  The first conjunct states that the work-queue implementation
returns precisely the records and final grid of the layered reference
`bfsSpec` (trigger at distance 0, removed bombs enqueue their eight in-bounds
neighbours at distance + 1, tiles never propagate, each removed cell's
recorded distance is its BFS layer).  The remaining conjuncts: every record
describes a cell that was on the board at the recorded coordinates with the
recorded kind, no cell is reported twice, every reported slot is empty
afterwards, and every slot not reached by the fill is unchanged. -/
theorem remove_matches_bfs (W H : Nat) (b : Board) (x y : Nat) :
    ((Board.remove W H b x y).1, (Board.remove W H b x y).2.cells) =
      bfsSpec W H b.cells x y ∧
    (∀ t ∈ (Board.remove W H b x y).1,
      getCell b.cells t.x t.y = some ⟨t.id, t.cell_type⟩) ∧
    ((Board.remove W H b x y).1.map (fun t => (t.x, t.y))).Nodup ∧
    (∀ t ∈ (Board.remove W H b x y).1,
      getCell (Board.remove W H b x y).2.cells t.x t.y = none) ∧
    (∀ cx cy, (∀ t ∈ (Board.remove W H b x y).1, ¬(t.x = cx ∧ t.y = cy)) →
      getCell (Board.remove W H b x y).2.cells cx cy = getCell b.cells cx cy) := by
  obtain ⟨inv1, inv2, inv3, inv4⟩ :=
    removeLoop_inv W H (9 * gridSize b.cells + 9) [(x, y, 0)] b.cells
  have heq : removeLoop W H (9 * gridSize b.cells + 9) [(x, y, 0)] b.cells =
      bfsSpec W H b.cells x y := by
    have hocc := occupied_le_gridSize b.cells
    have h := removeLoop_eq_bfsRounds W H (gridSize b.cells + 1) b.cells
      [(x, y)] 0 (9 * gridSize b.cells + 9)
      (Nat.add_le_add_right hocc 1) (by simpa using by omega)
    simpa [bfsSpec] using h
  exact ⟨heq, fun t ht => (inv2 t ht).1, inv3, fun t ht => (inv2 t ht).2, inv4⟩

theorem remove_absent_aux (W H : Nat) (b : Board) (x y : Nat)
    (h : getCell b.cells x y = none) :
    Board.remove W H b x y = ([], b) := by
  have h9 : 9 * gridSize b.cells + 9 = (9 * gridSize b.cells + 8) + 1 := rfl
  simp only [Board.remove, h9, removeLoop, h, removeLoop_nil]

/-- C9: `Board::remove` is total and a no-op on absent cells.  `getCell`
returns `none` both for an in-bounds empty slot and for any out-of-range
coordinate (the `get`/`and_then` chain of the source), so both behave
identically: no record is produced and the board is returned unchanged.
Totality is inherent: the operation is a Lean function on all inputs. -/
theorem remove_total_noop (W H : Nat) (b : Board) (x y : Nat)
    (h : getCell b.cells x y = none) :
    Board.remove W H b x y = ([], b) :=
  remove_absent_aux W H b x y h

/-- Witness for C9 at a concrete input: the coordinate (5, 5) is out of
range on an empty 2×2 board, and removal there is a no-op. -/
theorem remove_total_noop_witness :
    getCell (Board.new 2 2).cells 5 5 = none ∧
    Board.remove 2 2 (Board.new 2 2) 5 5 = ([], Board.new 2 2) :=
  ⟨by decide, remove_total_noop 2 2 (Board.new 2 2) 5 5 (by decide)⟩

/-!
## Gravity
-/

/-- `Vec::swap` on a list (in-bounds in every reachable call; out-of-bounds
indices leave the list unchanged, where Rust would panic — never reached
with the well-formedness hypotheses used below). -/
def swapIdx {α : Type} (l : List α) (i j : Nat) : List α :=
  match l[i]?, l[j]? with
  | some a, some b => (l.set i b).set j a
  | _, _ => l

/-- The per-column loop of `Board::apply_gravity` from `src/board.rs`:
`n` is the loop counter (the current row is `y = n - 1`, iterated from
`HEIGHT - 1` down to `0`), `blank_cells_below` counts the empty slots seen
so far; an occupied slot is swapped down by that amount and recorded if it
moved. -/
def gravityLoop : Nat → List (Option Cell) → Nat →
    List (Option Cell) × List (Nat × Nat)
  | 0, col, _ => (col, [])
  | n + 1, col, blank_cells_below =>
    match col.getD n none with
    | some c =>
      let col' := swapIdx col n (n + blank_cells_below)
      let t := gravityLoop n col' blank_cells_below
      (t.1,
        (if 0 < blank_cells_below then [(c.id, blank_cells_below)] else []) ++ t.2)
    | none => gravityLoop n col (blank_cells_below + 1)

/-- `Board::apply_gravity`: compact every column toward the bottom.  The
source collects the fall distances in one `BTreeMap` keyed by cell id; the
model returns the inserted `(id, rows_fallen)` pairs, column by column —
under the board invariant of pairwise-distinct ids (a hypothesis of the
theorems below) every insertion is fresh, so this list is exactly the map. -/
def Board.apply_gravity (H : Nat) (b : Board) : List (Nat × Nat) × Board :=
  ((b.cells.map (fun col => (gravityLoop H col 0).2)).flatten,
   { b with cells := b.cells.map (fun col => (gravityLoop H col 0).1) })

/-- The occupied cells of a column, top to bottom. -/
def colCells (col : List (Option Cell)) : List Cell := col.filterMap id

/-- A fully settled column: all blanks on top, the cells at the bottom in
their original relative order. -/
def settleCol (col : List (Option Cell)) : List (Option Cell) :=
  List.replicate (col.countP (fun oc => oc.isNone)) none ++ (colCells col).map some

/-- Number of empty slots strictly below row `y` of a column. -/
def blanksBelow (col : List (Option Cell)) (y : Nat) : Nat :=
  (col.drop (y + 1)).countP (fun oc => oc.isNone)

/-- Fall-distance records of one column, computed bottom-up over the
reversed column: an occupied slot with `blanks` empty slots below it falls
by `blanks` and is recorded iff `blanks` is positive. -/
def fdOfRev : List (Option Cell) → Nat → List (Nat × Nat)
  | [], _ => []
  | none :: rest, blanks => fdOfRev rest (blanks + 1)
  | some c :: rest, blanks =>
    (if 0 < blanks then [(c.id, blanks)] else []) ++ fdOfRev rest blanks

theorem swapIdx_step (pre : List (Option Cell)) (c : Cell) (blanks : Nat)
    (s : List Cell) :
    swapIdx ((pre ++ [some c]) ++ (List.replicate blanks none ++ s.map some))
        pre.length (pre.length + blanks) =
      pre ++ (List.replicate blanks none ++ (c :: s).map some) := by
  have hi : ((pre ++ [some c]) ++ (List.replicate blanks none ++ s.map some))[pre.length]? =
      some (some c) := by
    rw [List.getElem?_append_left (by simp)]
    exact List.getElem?_concat_length pre (some c)
  cases blanks with
  | zero =>
    simp only [Nat.add_zero]
    simp only [swapIdx, hi]
    rw [list_set_self _ _ _ hi, list_set_self _ _ _ hi]
    simp
  | succ b' =>
    have hj : ((pre ++ [some c]) ++
        (List.replicate (b' + 1) none ++ s.map some))[pre.length + (b' + 1)]? =
        some (none : Option Cell) := by
      rw [List.getElem?_append_right (by simp)]
      have hsub' : pre.length + (b' + 1) - (pre ++ [some c]).length = b' := by
        simp only [List.length_append, List.length_cons, List.length_nil]
        omega
      rw [hsub', List.getElem?_append_left (by simp [Nat.lt_succ_self]),
        List.getElem?_replicate, if_pos (Nat.lt_succ_self b')]
    simp only [swapIdx, hi, hj]
    have hset1 : ((pre ++ [some c]) ++
        (List.replicate (b' + 1) none ++ s.map some)).set pre.length none =
        (pre ++ [none]) ++ (List.replicate (b' + 1) none ++ s.map some) := by
      rw [List.set_append, if_pos (by simp), List.set_append,
        if_neg (by simp), Nat.sub_self, List.set_cons_zero]
    rw [hset1]
    have hset2 : ((pre ++ [none]) ++
        (List.replicate (b' + 1) none ++ s.map some)).set (pre.length + (b' + 1))
          (some c) =
        (pre ++ [none]) ++
          ((List.replicate b' none ++ [some c]) ++ s.map some) := by
      rw [List.set_append,
        if_neg (by simp only [List.length_append, List.length_cons,
          List.length_nil]; omega)]
      have hsub : pre.length + (b' + 1) - (pre ++ [none]).length = b' := by
        simp only [List.length_append, List.length_cons, List.length_nil]
        omega
      rw [hsub, List.set_append, if_pos (by simp [Nat.lt_succ_self]),
        List.replicate_succ' b' (none : Option Cell), List.set_append,
        if_neg (by simp)]
      have hz : b' - (List.replicate b' (none : Option Cell)).length = 0 := by
        simp
      rw [hz, List.set_cons_zero]
    rw [hset2]
    simp [List.replicate_succ]

theorem getD_concat_boundary (pre : List (Option Cell)) (last : Option Cell)
    (rest : List (Option Cell)) :
    ((pre ++ [last]) ++ rest).getD pre.length none = last := by
  rw [List.getD_eq_getElem?_getD,
    List.getElem?_append_left (by simp [Nat.lt_succ_self]),
    List.getElem?_concat_length]
  rfl

/-- Full characterisation of the per-column gravity loop.  Processing the
first `pre.length` rows of a column of the shape
`pre ++ (blanks empty slots ++ settled cells)` yields the settled column
(all blanks of `pre` plus the incoming ones on top, then all cells in
order) and the fall records of `pre` read bottom-up. -/
theorem gravityLoop_char (pre : List (Option Cell)) :
    ∀ (blanks : Nat) (s : List Cell),
      gravityLoop pre.length
          (pre ++ (List.replicate blanks none ++ s.map some)) blanks =
        (List.replicate (pre.countP (fun oc => oc.isNone) + blanks) none ++
          ((colCells pre).map some ++ s.map some),
         fdOfRev pre.reverse blanks) := by
  induction pre using List.reverseRecOn with
  | nil =>
    intro blanks s
    simp [gravityLoop, colCells, fdOfRev]
  | append_singleton pre' last ih =>
    intro blanks s
    have hlen : (pre' ++ [last]).length = pre'.length + 1 := by simp
    rw [hlen]
    cases last with
    | none =>
      have hget : ((pre' ++ [none]) ++
          (List.replicate blanks none ++ s.map some)).getD pre'.length none =
          (none : Option Cell) := getD_concat_boundary pre' none _
      rw [gravityLoop, hget]
      have hcol : (pre' ++ [none]) ++ (List.replicate blanks none ++ s.map some) =
          pre' ++ (List.replicate (blanks + 1) none ++ s.map some) := by
        simp [List.replicate_succ]
      rw [hcol, ih (blanks + 1) s]
      refine Prod.ext ?_ ?_
      · simp only [colCells, List.filterMap_append, List.countP_append]
        have : List.countP (fun oc => oc.isNone) pre' + (blanks + 1) =
            List.countP (fun oc => oc.isNone) pre' +
              List.countP (fun oc => oc.isNone) [(none : Option Cell)] + blanks := by
          simp
          omega
        rw [this]
        simp
      · simp [fdOfRev]
    | some c =>
      have hget : ((pre' ++ [some c]) ++
          (List.replicate blanks none ++ s.map some)).getD pre'.length none =
          some c := getD_concat_boundary pre' (some c) _
      rw [gravityLoop, hget]
      rw [swapIdx_step pre' c blanks s]
      dsimp only
      rw [ih blanks (c :: s)]
      refine Prod.ext ?_ ?_
      · simp [colCells, List.filterMap_append, List.countP_append]
      · simp [fdOfRev]

theorem gravityLoop_settle (col : List (Option Cell)) :
    gravityLoop col.length col 0 = (settleCol col, fdOfRev col.reverse 0) := by
  have h := gravityLoop_char col 0 []
  simpa [settleCol] using h

theorem colCells_map_some (l : List Cell) : colCells (l.map some) = l := by
  simp [colCells]

theorem colCells_replicate_none (k : Nat) :
    colCells (List.replicate k none) = [] := by
  induction k with
  | zero => rfl
  | succ k' ih =>
    rw [List.replicate_succ]
    simp [colCells, List.filterMap_cons]

theorem colCells_settleCol (col : List (Option Cell)) :
    colCells (settleCol col) = colCells col := by
  simp [settleCol, colCells, List.filterMap_append]

theorem countP_add_colCells_length (col : List (Option Cell)) :
    col.countP (fun oc => oc.isNone) + (colCells col).length = col.length := by
  induction col with
  | nil => rfl
  | cons oc rest ih =>
    cases oc <;> simp [colCells, List.filterMap_cons, List.countP_cons] at ih ⊢ <;> omega

theorem length_settleCol (col : List (Option Cell)) :
    (settleCol col).length = col.length := by
  simp [settleCol]
  have := countP_add_colCells_length col
  omega

theorem countP_settleCol (col : List (Option Cell)) :
    (settleCol col).countP (fun oc => oc.isNone) =
      col.countP (fun oc => oc.isNone) := by
  simp [settleCol, List.countP_append, List.countP_replicate, List.countP_map,
    Function.comp]

theorem settleCol_idem (col : List (Option Cell)) :
    settleCol (settleCol col) = settleCol col := by
  conv_lhs => rw [settleCol, countP_settleCol, colCells_settleCol]
  rfl

theorem fdOfRev_replicate_none (k b : Nat) :
    fdOfRev (List.replicate k none) b = [] := by
  induction k generalizing b with
  | zero => rfl
  | succ k' ih => simp [List.replicate_succ, fdOfRev, ih]

theorem fdOfRev_somes (l : List (Option Cell)) (rest : List (Option Cell))
    (h : ∀ oc ∈ l, oc.isSome) : fdOfRev (l ++ rest) 0 = fdOfRev rest 0 := by
  induction l with
  | nil => rfl
  | cons oc tl ih =>
    cases oc with
    | none => simp at h
    | some c =>
      simp only [List.cons_append, fdOfRev]
      rw [if_neg (by decide), List.nil_append]
      exact ih fun oc hoc => h oc (List.mem_cons_of_mem _ hoc)

theorem fdOfRev_settleCol (col : List (Option Cell)) :
    fdOfRev (settleCol col).reverse 0 = [] := by
  rw [settleCol, List.reverse_append, List.reverse_replicate]
  rw [fdOfRev_somes]
  · exact fdOfRev_replicate_none _ 0
  · intro oc hoc
    rw [List.mem_reverse] at hoc
    rcases List.mem_map.mp hoc with ⟨c, _, rfl⟩
    rfl

/-- `apply_gravity` on a well-formed board: every column is settled and the
records are the bottom-up fall records of each column. -/
theorem apply_gravity_eq (H : Nat) (b : Board)
    (hwf : ∀ col ∈ b.cells, col.length = H) :
    Board.apply_gravity H b =
      ((b.cells.map (fun col => fdOfRev col.reverse 0)).flatten,
       { b with cells := b.cells.map settleCol }) := by
  unfold Board.apply_gravity
  have h1 : ∀ col ∈ b.cells,
      (gravityLoop H col 0).2 = fdOfRev col.reverse 0 := by
    intro col hcol
    rw [← hwf col hcol, gravityLoop_settle]
  have h2 : ∀ col ∈ b.cells, (gravityLoop H col 0).1 = settleCol col := by
    intro col hcol
    rw [← hwf col hcol, gravityLoop_settle]
  rw [List.map_congr_left h1, List.map_congr_left h2]

/-- C4: gravity is idempotent — a second `apply_gravity` with no
intervening mutation returns an empty fall-distance map and leaves the
board unchanged. -/
theorem apply_gravity_idem (H : Nat) (b : Board)
    (hwf : ∀ col ∈ b.cells, col.length = H) :
    Board.apply_gravity H (Board.apply_gravity H b).2 =
      ([], (Board.apply_gravity H b).2) := by
  have hb' : (Board.apply_gravity H b).2 =
      { b with cells := b.cells.map settleCol } := by
    rw [apply_gravity_eq H b hwf]
  have hwf' : ∀ col ∈ (b.cells.map settleCol), col.length = H := by
    intro col hcol
    rcases List.mem_map.mp hcol with ⟨col0, hcol0, rfl⟩
    rw [length_settleCol]
    exact hwf col0 hcol0
  rw [hb', apply_gravity_eq H _ hwf']
  refine Prod.ext ?_ ?_
  · dsimp only
    rw [List.map_map]
    have hcongr : ∀ col ∈ b.cells,
        ((fun col => fdOfRev col.reverse 0) ∘ settleCol) col =
          ([] : List (Nat × Nat)) :=
      fun col _ => fdOfRev_settleCol col
    rw [List.map_congr_left hcongr]
    simp
  · dsimp only
    rw [List.map_map]
    have hcongr : ∀ col ∈ b.cells, (settleCol ∘ settleCol) col = settleCol col :=
      fun col _ => settleCol_idem col
    rw [List.map_congr_left hcongr]

/-- Witness for C4 at a concrete board: a 2×2 board with one floating cell. -/
theorem apply_gravity_idem_witness :
    (∀ col ∈ (Board.mk [[some ⟨0, CellType.Tile⟩, none], [none, none]] 1).cells,
      col.length = 2) ∧
    Board.apply_gravity 2
        (Board.apply_gravity 2
          (Board.mk [[some ⟨0, CellType.Tile⟩, none], [none, none]] 1)).2 =
      ([], (Board.apply_gravity 2
          (Board.mk [[some ⟨0, CellType.Tile⟩, none], [none, none]] 1)).2) :=
  ⟨by decide, apply_gravity_idem 2 _ (by decide)⟩

theorem blanksBelow_append_none (col : List (Option Cell)) (y : Nat)
    (h : y < col.length) :
    blanksBelow (col ++ [none]) y = blanksBelow col y + 1 := by
  unfold blanksBelow
  rw [List.drop_append_of_le_length (by omega), List.countP_append]
  simp

theorem blanksBelow_append_some (col : List (Option Cell)) (c₀ : Cell)
    (y : Nat) (h : y < col.length) :
    blanksBelow (col ++ [some c₀]) y = blanksBelow col y := by
  unfold blanksBelow
  rw [List.drop_append_of_le_length (by omega), List.countP_append]
  simp

theorem blanksBelow_last (col : List (Option Cell)) (last : Option Cell) :
    blanksBelow (col ++ [last]) col.length = 0 := by
  unfold blanksBelow
  rw [List.drop_eq_nil_of_le (by simp)]
  rfl

/-- A cell at row `y` ends up at row `y + blanksBelow` of the settled
column: it moves only downward, by exactly the number of blanks below it. -/
theorem settleCol_getElem (col : List (Option Cell)) (y : Nat) (c : Cell)
    (h : col[y]? = some (some c)) :
    (settleCol col)[y + blanksBelow col y]? = some (some c) := by
  have hy : y < col.length := by
    by_contra hge
    rw [List.getElem?_eq_none (Nat.le_of_not_lt hge)] at h
    exact Option.noConfusion h
  have hgy : col[y] = some c := by
    have h2 : col[y]? = some col[y] := List.getElem?_eq_getElem hy
    rw [h] at h2
    exact (Option.some.inj h2).symm
  have hdecomp : col = col.take y ++ (some c :: col.drop (y + 1)) := by
    conv_lhs => rw [← List.take_append_drop y col, List.drop_eq_getElem_cons hy,
      hgy]
  have hlentake : (col.take y).length = y := by
    rw [List.length_take]
    omega
  have hcellsplit : colCells col =
      colCells (col.take y) ++ (c :: colCells (col.drop (y + 1))) := by
    conv_lhs => rw [hdecomp]
    simp [colCells, List.filterMap_append, List.filterMap_cons]
  have hcountsplit : col.countP (fun oc => oc.isNone) =
      (col.take y).countP (fun oc => oc.isNone) + blanksBelow col y := by
    conv_lhs => rw [hdecomp]
    simp [List.countP_append, List.countP_cons, blanksBelow]
  have hidx : y + blanksBelow col y =
      col.countP (fun oc => oc.isNone) + (colCells (col.take y)).length := by
    have htake := countP_add_colCells_length (col.take y)
    omega
  rw [settleCol, hidx,
    List.getElem?_append_right (by simp),
    List.length_replicate, Nat.add_sub_cancel_left, List.getElem?_map,
    hcellsplit, List.getElem?_append_right (Nat.le_refl _), Nat.sub_self]
  simp

/-- The fall records of a column (read bottom-up with `blanks` incoming
blanks) are exactly the `(id, fall distance)` pairs of the occupied slots
with at least one blank below them. -/
theorem fdOfRev_mem_iff (col : List (Option Cell)) :
    ∀ (b idv dv : Nat),
      (idv, dv) ∈ fdOfRev col.reverse b ↔
        ∃ y c, col[y]? = some (some c) ∧ c.id = idv ∧
          blanksBelow col y + b = dv ∧ 0 < dv := by
  induction col using List.reverseRecOn with
  | nil =>
    intro b idv dv
    simp [fdOfRev]
  | append_singleton col' last ih =>
    intro b idv dv
    rw [List.reverse_append]
    simp only [List.reverse_cons, List.reverse_nil, List.nil_append,
      List.singleton_append]
    cases last with
    | none =>
      rw [show fdOfRev ((none : Option Cell) :: col'.reverse) b =
          fdOfRev col'.reverse (b + 1) from rfl, ih (b + 1) idv dv]
      constructor
      · rintro ⟨y, c, hy, hid, hbl, hdv⟩
        have hylt : y < col'.length := by
          by_contra hge
          rw [List.getElem?_eq_none (Nat.le_of_not_lt hge)] at hy
          exact Option.noConfusion hy
        refine ⟨y, c, ?_, hid, ?_, hdv⟩
        · rw [List.getElem?_append_left hylt]
          exact hy
        · rw [blanksBelow_append_none col' y hylt]
          omega
      · rintro ⟨y, c, hy, hid, hbl, hdv⟩
        have hylt : y < col'.length := by
          rcases Nat.lt_trichotomy y col'.length with hlt | heq | hgt
          · exact hlt
          · subst heq
            rw [List.getElem?_concat_length] at hy
            exact Option.noConfusion (Option.some.inj hy)
          · rw [List.getElem?_eq_none (by simp; omega)] at hy
            exact Option.noConfusion hy
        rw [List.getElem?_append_left hylt] at hy
        rw [blanksBelow_append_none col' y hylt] at hbl
        exact ⟨y, c, hy, hid, by omega, hdv⟩
    | some c₀ =>
      rw [show fdOfRev ((some c₀ : Option Cell) :: col'.reverse) b =
          (if 0 < b then [(c₀.id, b)] else []) ++ fdOfRev col'.reverse b
        from rfl]
      rw [List.mem_append, ih b idv dv]
      constructor
      · rintro (hentry | ⟨y, c, hy, hid, hbl, hdv⟩)
        · by_cases hb : 0 < b
          · rw [if_pos hb] at hentry
            have heq := List.mem_singleton.mp hentry
            have h1 : idv = c₀.id := congrArg Prod.fst heq
            have h2 : dv = b := congrArg Prod.snd heq
            refine ⟨col'.length, c₀, ?_, h1.symm, ?_, by omega⟩
            · exact List.getElem?_concat_length col' (some c₀)
            · rw [blanksBelow_last]
              omega
          · rw [if_neg hb] at hentry
            exact absurd hentry (List.not_mem_nil _)
        · have hylt : y < col'.length := by
            by_contra hge
            rw [List.getElem?_eq_none (Nat.le_of_not_lt hge)] at hy
            exact Option.noConfusion hy
          refine ⟨y, c, ?_, hid, ?_, hdv⟩
          · rw [List.getElem?_append_left hylt]
            exact hy
          · rw [blanksBelow_append_some col' c₀ y hylt]
            omega
      · rintro ⟨y, c, hy, hid, hbl, hdv⟩
        rcases Nat.lt_trichotomy y col'.length with hlt | heq | hgt
        · right
          rw [List.getElem?_append_left hlt] at hy
          rw [blanksBelow_append_some col' c₀ y hlt] at hbl
          exact ⟨y, c, hy, hid, by omega, hdv⟩
        · left
          subst heq
          rw [List.getElem?_concat_length] at hy
          have hc : c = c₀ := (Option.some.inj (Option.some.inj hy)).symm
          subst hc
          rw [blanksBelow_last] at hbl
          simp only [Nat.zero_add] at hbl
          subst hbl
          rw [if_pos hdv]
          simp [hid]
        · rw [List.getElem?_eq_none (by simp; omega)] at hy
          exact Option.noConfusion hy

theorem fdOfRev_keys_sublist (l : List (Option Cell)) :
    ∀ b : Nat,
      ((fdOfRev l b).map Prod.fst).Sublist ((colCells l).map Cell.id) := by
  induction l with
  | nil => intro b; simp [fdOfRev]
  | cons oc rest ih =>
    intro b
    cases oc with
    | none =>
      simpa [fdOfRev, colCells, List.filterMap_cons] using ih (b + 1)
    | some c =>
      simp only [fdOfRev, colCells, List.filterMap_cons]
      by_cases hb : 0 < b
      · rw [if_pos hb]
        simpa using List.Sublist.cons₂ c.id (ih b)
      · rw [if_neg hb]
        simpa using List.Sublist.cons c.id (ih b)

theorem flatten_map_sublist {α β : Type} (l : List α) (f g : α → List β)
    (h : ∀ x ∈ l, (f x).Sublist (g x)) :
    ((l.map f).flatten).Sublist ((l.map g).flatten) := by
  induction l with
  | nil => simp
  | cons a rest ih =>
    simp only [List.map_cons, List.flatten_cons]
    exact (h a (List.mem_cons_self a rest)).append
      (ih fun x hx => h x (List.mem_cons_of_mem _ hx))

/-- All cell ids on the board, column by column, top to bottom. -/
def boardIds (b : Board) : List Nat :=
  (b.cells.map (fun col => (colCells col).map Cell.id)).flatten

/-- C3: `apply_gravity` conserves each column's cells (same cells, same
relative top-to-bottom order — hence the multiset of `(id, kind)` pairs is
unchanged and nothing crosses columns), moves cells only toward higher row
indices (a cell at row `y` lands at `y + blanksBelow`, its fall distance),
and the returned map has exactly one entry per moved cell, keyed by its id
and valued with the number of rows it fell. -/
theorem apply_gravity_spec (H : Nat) (b : Board)
    (hwf : ∀ col ∈ b.cells, col.length = H)
    (hids : (boardIds b).Nodup) :
    (∀ i, colCells (((Board.apply_gravity H b).2.cells).getD i []) =
      colCells (b.cells.getD i [])) ∧
    (Board.apply_gravity H b).2.cells.length = b.cells.length ∧
    (∀ i col y c, b.cells[i]? = some col → col[y]? = some (some c) →
      (((Board.apply_gravity H b).2.cells).getD i [])[y + blanksBelow col y]? =
        some (some c) ∧
      (0 < blanksBelow col y →
        (c.id, blanksBelow col y) ∈ (Board.apply_gravity H b).1)) ∧
    (∀ idv dv, (idv, dv) ∈ (Board.apply_gravity H b).1 →
      0 < dv ∧ ∃ (i y : Nat) (col : List (Option Cell)) (c : Cell),
        b.cells[i]? = some col ∧ col[y]? = some (some c) ∧
        c.id = idv ∧ blanksBelow col y = dv) ∧
    ((Board.apply_gravity H b).1.map Prod.fst).Nodup := by
  rw [apply_gravity_eq H b hwf]
  refine ⟨?_, by simp, ?_, ?_, ?_⟩
  · intro i
    dsimp only
    rw [List.getD_eq_getElem?_getD, List.getD_eq_getElem?_getD,
      List.getElem?_map]
    cases hcol : b.cells[i]? with
    | none => rfl
    | some col => simp [colCells_settleCol]
  · intro i col y c hcol hy
    dsimp only
    constructor
    · rw [List.getD_eq_getElem?_getD, List.getElem?_map, hcol]
      exact settleCol_getElem col y c hy
    · intro hpos
      rw [List.mem_flatten]
      refine ⟨fdOfRev col.reverse 0, List.mem_map_of_mem _ (List.getElem?_mem hcol), ?_⟩
      rw [fdOfRev_mem_iff col 0 c.id (blanksBelow col y)]
      exact ⟨y, c, hy, rfl, by omega, hpos⟩
  · intro idv dv hmem
    dsimp only at hmem
    rw [List.mem_flatten] at hmem
    obtain ⟨fd, hfd, hmem'⟩ := hmem
    rcases List.mem_map.mp hfd with ⟨col, hcolmem, rfl⟩
    rw [fdOfRev_mem_iff col 0 idv dv] at hmem'
    obtain ⟨y, c, hy, hid, hbl, hdv⟩ := hmem'
    rcases List.mem_iff_getElem?.mp hcolmem with ⟨i, hi⟩
    exact ⟨hdv, i, y, col, c, hi, hy, hid, by omega⟩
  · dsimp only
    rw [List.map_flatten, List.map_map]
    have hkeymem : ∀ (col : List (Option Cell)) (x : Nat),
        x ∈ (fdOfRev col.reverse 0).map Prod.fst →
        x ∈ (colCells col).map Cell.id := by
      intro col x hx
      have hx2 := (fdOfRev_keys_sublist col.reverse 0).subset hx
      rwa [show colCells col.reverse = (colCells col).reverse from
        List.filterMap_reverse id col, List.map_reverse, List.mem_reverse] at hx2
    unfold boardIds at hids
    obtain ⟨hids1, hids2⟩ := List.nodup_flatten.mp hids
    rw [List.nodup_flatten]
    constructor
    · intro l hl
      rcases List.mem_map.mp hl with ⟨col, hc, rfl⟩
      have hcolids : ((colCells col).map Cell.id).Nodup :=
        hids1 _ (List.mem_map_of_mem _ hc)
      have hrev : ((colCells col.reverse).map Cell.id).Nodup := by
        rw [show colCells col.reverse = (colCells col).reverse from
          List.filterMap_reverse id col, List.map_reverse, List.nodup_reverse]
        exact hcolids
      exact List.Nodup.sublist (fdOfRev_keys_sublist col.reverse 0) hrev
    · rw [List.pairwise_map]
      refine (List.pairwise_map.mp hids2).imp ?_
      intro col1 col2 hdisj x hx1 hx2
      exact hdisj (hkeymem col1 x hx1) (hkeymem col2 x hx2)

/-- Witness for C3 at a concrete board (well-formed, distinct ids); the
final conjunct of the theorem is extracted after discharging both
hypotheses by evaluation. -/
theorem apply_gravity_spec_witness :
    (∀ col ∈ (Board.mk [[some ⟨0, CellType.Tile⟩, none],
        [none, some ⟨1, CellType.Bomb⟩]] 2).cells, col.length = 2) ∧
    (boardIds (Board.mk [[some ⟨0, CellType.Tile⟩, none],
        [none, some ⟨1, CellType.Bomb⟩]] 2)).Nodup ∧
    ((Board.apply_gravity 2 (Board.mk [[some ⟨0, CellType.Tile⟩, none],
        [none, some ⟨1, CellType.Bomb⟩]] 2)).1.map Prod.fst).Nodup :=
  ⟨by decide, by decide,
    (apply_gravity_spec 2 _ (by decide) (by decide)).2.2.2.2⟩

/-!
## Feed
-/

/-- The stateful `row.map(...)` of `Board::feed`: mint one cell per entry,
ids taken from the running counter in order. -/
def mintRow (gc : Nat) : List CellType → List Cell
  | [] => []
  | t :: rest => ⟨gc, t⟩ :: mintRow (gc + 1) rest

/-- The per-column body of `Board::feed`: `rotate_left(1)` then overwrite
the last slot with the new cell.  (On an empty column the source would
panic in `last_mut().unwrap()`; here the column stays empty — the claims
assume `HEIGHT > 0`, under which the cases agree.) -/
def feedColumn (c : Cell) (col : List (Option Cell)) : List (Option Cell) :=
  (col.drop 1 ++ col.take 1).set (col.length - 1) (some c)

/-- `Board::feed`: discard each column's topmost cell, shift the rest up,
insert a freshly minted cell at the bottom.  The `zip` of the source pairs
the minted row with the columns (and, like `zip`, leaves any extra columns
untouched — with a well-formed board both have length `WIDTH`). -/
def Board.feed (b : Board) (row : List CellType) : List Cell × Board :=
  let minted := mintRow b.generated_cells row
  (minted,
   { cells := List.zipWith feedColumn minted b.cells ++ b.cells.drop minted.length,
     generated_cells := b.generated_cells + row.length })

theorem mintRow_length (gc : Nat) (row : List CellType) :
    (mintRow gc row).length = row.length := by
  induction row generalizing gc with
  | nil => rfl
  | cons t rest ih => simp [mintRow, ih]

theorem mintRow_getElem? (row : List CellType) :
    ∀ (gc i : Nat),
      (mintRow gc row)[i]? = (row[i]?).map (fun t => ⟨gc + i, t⟩) := by
  induction row with
  | nil => intro gc i; simp [mintRow]
  | cons t rest ih =>
    intro gc i
    cases i with
    | zero => simp [mintRow]
    | succ i' =>
      simp only [mintRow, List.getElem?_cons_succ, ih (gc + 1) i']
      cases rest[i']? <;> simp
      omega

theorem mintRow_mem (row : List CellType) :
    ∀ (gc : Nat) (c : Cell), c ∈ mintRow gc row →
      gc ≤ c.id ∧ c.id < gc + row.length := by
  induction row with
  | nil => intro gc c hc; simp [mintRow] at hc
  | cons t rest ih =>
    intro gc c hc
    rcases List.mem_cons.mp hc with rfl | hc'
    · simp
    · have := ih (gc + 1) c hc'
      simp only [List.length_cons]
      omega

theorem mintRow_ids (row : List CellType) :
    ∀ gc : Nat,
      (mintRow gc row).map Cell.id = (List.range row.length).map (gc + ·) := by
  induction row with
  | nil => intro gc; rfl
  | cons t rest ih =>
    intro gc
    simp only [mintRow, List.map_cons, List.length_cons,
      List.range_succ_eq_map, ih (gc + 1), List.map_map]
    refine congrArg₂ _ (by omega) ?_
    refine List.map_congr_left ?_
    intro i _
    simp [Function.comp, Nat.succ_eq_add_one]
    omega

theorem feedColumn_eq (c : Cell) (col : List (Option Cell)) (h : col ≠ []) :
    feedColumn c col = col.drop 1 ++ [some c] := by
  cases col with
  | nil => exact absurd rfl h
  | cons oc rest =>
    simp only [feedColumn, List.drop_succ_cons, List.drop_zero,
      List.take_succ_cons, List.take_zero, List.length_cons,
      Nat.add_sub_cancel]
    rw [List.set_append, if_neg (by omega), Nat.sub_self, List.set_cons_zero]

/-- C2: `Board::feed` acts per column: the topmost cell (row 0) is
discarded, the remaining cells shift one row toward the top, and a freshly
minted cell enters at the bottom slot — the new column is
`old.drop 1 ++ [new]`, so exactly one cell enters and one is discarded, and
the column length is invariant (`H`). -/
theorem feed_spec (W H : Nat) (b : Board) (row : List CellType)
    (hW : b.cells.length = W) (hrow : row.length = W)
    (hwf : ∀ col ∈ b.cells, col.length = H) (hH : 0 < H) :
    (Board.feed b row).1 = mintRow b.generated_cells row ∧
    (Board.feed b row).2.generated_cells = b.generated_cells + W ∧
    (Board.feed b row).2.cells.length = W ∧
    (∀ i, i < W →
      (Board.feed b row).1[i]? =
        some ⟨b.generated_cells + i, row.getD i CellType.Tile⟩ ∧
      (Board.feed b row).2.cells[i]? =
        some ((b.cells.getD i []).drop 1 ++
          [some ⟨b.generated_cells + i, row.getD i CellType.Tile⟩]) ∧
      ((b.cells.getD i []).drop 1 ++
        [some (⟨b.generated_cells + i, row.getD i CellType.Tile⟩ : Cell)]).length
        = H) := by
  have hmlen : (mintRow b.generated_cells row).length = W := by
    rw [mintRow_length, hrow]
  have hdrop : b.cells.drop (mintRow b.generated_cells row).length = [] := by
    rw [List.drop_eq_nil_of_le (by omega)]
  refine ⟨rfl, by simp [Board.feed, hrow], ?_, ?_⟩
  · show (List.zipWith feedColumn (mintRow b.generated_cells row) b.cells ++
      b.cells.drop (mintRow b.generated_cells row).length).length = W
    rw [hdrop, List.append_nil, List.length_zipWith, hmlen, hW]
    omega
  · intro i hi
    have hrowi : row[i]? = some (row.getD i CellType.Tile) := by
      rw [List.getD_eq_getElem?_getD]
      cases hr : row[i]? with
      | none =>
        rw [List.getElem?_eq_none_iff] at hr
        omega
      | some t => rfl
    have hmint : (mintRow b.generated_cells row)[i]? =
        some ⟨b.generated_cells + i, row.getD i CellType.Tile⟩ := by
      rw [mintRow_getElem?, hrowi]
      rfl
    have hcoli : b.cells[i]? = some (b.cells.getD i []) := by
      rw [List.getD_eq_getElem?_getD]
      cases hc : b.cells[i]? with
      | none =>
        rw [List.getElem?_eq_none_iff] at hc
        omega
      | some col => rfl
    have hcolne : b.cells.getD i [] ≠ [] := by
      have hmem : b.cells.getD i [] ∈ b.cells := List.getElem?_mem hcoli
      have := hwf _ hmem
      intro hnil
      rw [hnil] at this
      simp at this
      omega
    have hcollen : (b.cells.getD i []).length = H :=
      hwf _ (List.getElem?_mem hcoli)
    refine ⟨hmint, ?_, ?_⟩
    · show (List.zipWith feedColumn (mintRow b.generated_cells row) b.cells ++
        b.cells.drop (mintRow b.generated_cells row).length)[i]? = _
      rw [hdrop, List.append_nil, List.getElem?_zipWith, hmint, hcoli]
      dsimp only
      rw [feedColumn_eq _ _ hcolne]
    · rw [List.length_append, List.length_drop, hcollen]
      simp
      omega

/-- C5: ids are fresh and monotone.  Under the board invariant (every id on
the board is below the generation counter, true of every reachable board),
each id minted by `feed` is at least the old counter and hence strictly
greater than every id previously seen on the board; the minted ids are
`counter, counter+1, …` in column order; the counter only grows (strictly
when the row is nonempty); and the invariant is preserved, so ids are never
reused. -/
theorem feed_fresh_ids (b : Board) (row : List CellType)
    (hinv : ∀ idv ∈ boardIds b, idv < b.generated_cells) :
    (∀ c ∈ (Board.feed b row).1, b.generated_cells ≤ c.id) ∧
    (∀ c ∈ (Board.feed b row).1, ∀ idv ∈ boardIds b, idv < c.id) ∧
    ((Board.feed b row).1.map Cell.id =
      (List.range row.length).map (b.generated_cells + ·)) ∧
    b.generated_cells ≤ (Board.feed b row).2.generated_cells ∧
    (row ≠ [] → b.generated_cells < (Board.feed b row).2.generated_cells) ∧
    (∀ idv ∈ boardIds (Board.feed b row).2,
      idv < (Board.feed b row).2.generated_cells) := by
  refine ⟨?_, ?_, mintRow_ids row b.generated_cells, ?_, ?_, ?_⟩
  · intro c hc
    exact (mintRow_mem row b.generated_cells c hc).1
  · intro c hc idv hidv
    have h1 := (mintRow_mem row b.generated_cells c hc).1
    have h2 := hinv idv hidv
    omega
  · show b.generated_cells ≤ b.generated_cells + row.length
    omega
  · intro hne
    show b.generated_cells < b.generated_cells + row.length
    cases row with
    | nil => exact absurd rfl hne
    | cons t rest => simp
  · intro idv hidv
    show idv < b.generated_cells + row.length
    unfold boardIds at hidv
    rw [List.mem_flatten] at hidv
    obtain ⟨ids, hids, hmem⟩ := hidv
    rcases List.mem_map.mp hids with ⟨col', hcol', rfl⟩
    rcases List.mem_map.mp hmem with ⟨c, hcmem, rfl⟩
    rcases List.mem_filterMap.mp hcmem with ⟨oc, hocmem, hoc⟩
    have hocc : oc = some c := by
      cases oc with
      | none => exact Option.noConfusion hoc
      | some c' => exact congrArg some (Option.some.inj hoc)
    subst hocc
    -- col' is either a fed column or an untouched leftover column
    have hcol'mem : col' ∈
        List.zipWith feedColumn (mintRow b.generated_cells row) b.cells ++
          b.cells.drop (mintRow b.generated_cells row).length := hcol'
    rcases List.mem_append.mp hcol'mem with hzip | hleft
    · rcases List.mem_iff_getElem?.mp hzip with ⟨i, hget⟩
      rw [List.getElem?_zipWith] at hget
      cases hm : (mintRow b.generated_cells row)[i]? with
      | none => rw [hm] at hget; exact Option.noConfusion hget
      | some cm =>
        cases hcl : b.cells[i]? with
        | none => rw [hm, hcl] at hget; exact Option.noConfusion hget
        | some col0 =>
          rw [hm, hcl] at hget
          have hcol0 : col' = feedColumn cm col0 := (Option.some.inj hget).symm
          subst hcol0
          unfold feedColumn at hocmem
          rcases List.mem_or_eq_of_mem_set hocmem with hmemrot | heq
          · have hmemcol0 : (some c : Option Cell) ∈ col0 := by
              rcases List.mem_append.mp hmemrot with hd | ht
              · exact List.mem_of_mem_drop hd
              · exact List.mem_of_mem_take ht
            have hcid : c.id ∈ boardIds b := by
              unfold boardIds
              rw [List.mem_flatten]
              refine ⟨(colCells col0).map Cell.id,
                List.mem_map_of_mem _ (List.getElem?_mem hcl), ?_⟩
              refine List.mem_map_of_mem _ ?_
              exact List.mem_filterMap.mpr ⟨some c, hmemcol0, rfl⟩
            have := hinv _ hcid
            omega
          · have hceq : c = cm := Option.some.inj heq
            subst hceq
            have := mintRow_mem row b.generated_cells c (List.getElem?_mem hm)
            omega
    · have hcid : c.id ∈ boardIds b := by
        unfold boardIds
        rw [List.mem_flatten]
        refine ⟨(colCells col').map Cell.id,
          List.mem_map_of_mem _ (List.mem_of_mem_drop hleft), ?_⟩
        exact List.mem_map_of_mem _ (List.mem_filterMap.mpr ⟨some c, hocmem, rfl⟩)
      have := hinv _ hcid
      omega

/-- Witness for C2 at a concrete 2×2 board and row. -/
theorem feed_spec_witness :
    ((Board.mk [[some ⟨0, CellType.Tile⟩, some ⟨1, CellType.Tile⟩],
        [none, some ⟨2, CellType.Bomb⟩]] 3).cells.length = 2 ∧
      ([CellType.Bomb, CellType.Tile] : List CellType).length = 2 ∧
      (∀ col ∈ (Board.mk [[some ⟨0, CellType.Tile⟩, some ⟨1, CellType.Tile⟩],
        [none, some ⟨2, CellType.Bomb⟩]] 3).cells, col.length = 2) ∧
      0 < 2) ∧
    (Board.feed (Board.mk [[some ⟨0, CellType.Tile⟩, some ⟨1, CellType.Tile⟩],
        [none, some ⟨2, CellType.Bomb⟩]] 3)
      [CellType.Bomb, CellType.Tile]).2.cells.length = 2 :=
  ⟨⟨by decide, by decide, by decide, by decide⟩,
    (feed_spec 2 2 _ _ (by decide) (by decide) (by decide) (by decide)).2.2.1⟩

/-- Witness for C5 at a concrete board whose ids all lie below the
counter; the minted ids are the next counter values in order. -/
theorem feed_fresh_ids_witness :
    (∀ idv ∈ boardIds (Board.mk [[some ⟨0, CellType.Tile⟩,
        some ⟨1, CellType.Tile⟩], [none, some ⟨2, CellType.Bomb⟩]] 3),
      idv < 3) ∧
    ((Board.feed (Board.mk [[some ⟨0, CellType.Tile⟩,
        some ⟨1, CellType.Tile⟩], [none, some ⟨2, CellType.Bomb⟩]] 3)
      [CellType.Bomb, CellType.Tile]).1.map Cell.id =
      (List.range 2).map (3 + ·)) :=
  ⟨by decide, (feed_fresh_ids _ _ (by decide)).2.2.1⟩

/-!
## Bomb generators (`src/game/mod.rs`)
-/

/-- `WIDTH` from `src/game/mod.rs`. -/
def WIDTH : Nat := 8

/-- `HEIGHT` from `src/game/mod.rs`. -/
def HEIGHT : Nat := 9

/-- `generate_x_pairs`: every pair `(first, second)` of column indices with
`first < second < WIDTH`, in lexicographic enumeration order. -/
def generate_x_pairs : List (Nat × Nat) :=
  (List.range WIDTH).flatMap
    (fun first => (List.range' (first + 1) (WIDTH - (first + 1))).map
      (fun second => (first, second)))

/-- `BombGenerator` from `src/game/mod.rs`.  The `StdRng` and the fixed
`generator: fn() -> Vec<T>` are abstracted into `reshuffles`, the stream of
future shuffle outcomes (`shuffle()` stores some permutation of
`generator()`); `shuffleCount` indexes the next outcome. -/
structure BombGenerator (T : Type) where
  shuffled : List T
  reshuffles : Nat → List T
  shuffleCount : Nat

/-- `Vec::pop`: remove and return the last element. -/
def vecPop {T : Type} (l : List T) : Option (T × List T) :=
  match l.reverse with
  | [] => none
  | x :: xs => some (x, xs.reverse)

/-- `BombGenerator::next`:
`self.shuffled.pop().unwrap_or_else(|| { self.shuffle(); self.next() })`.
The recursion bottoms out after one reshuffle because the source's
`generator()` always returns the full (nonempty) enumeration; an empty
reshuffle — unreachable for the generators the game builds — is mapped to
`none`. -/
def BombGenerator.next {T : Type} (g : BombGenerator T) :
    Option (T × BombGenerator T) :=
  match vecPop g.shuffled with
  | some (x, rest) => some (x, { g with shuffled := rest })
  | none =>
    match vecPop (g.reshuffles g.shuffleCount) with
    | some (x, rest) =>
      some (x, { g with shuffled := rest, shuffleCount := g.shuffleCount + 1 })
    | none => none

/-- Draw `n` times in sequence. -/
def drawN {T : Type} : Nat → BombGenerator T → Option (List T × BombGenerator T)
  | 0, g => some ([], g)
  | n + 1, g =>
    match g.next with
    | none => none
    | some (x, g') =>
      match drawN n g' with
      | none => none
      | some (xs, g'') => some (x :: xs, g'')

theorem vecPop_concat {T : Type} (l : List T) (x : T) :
    vecPop (l ++ [x]) = some (x, l) := by
  simp [vecPop]

theorem drawN_all {T : Type} (f : Nat → List T) (k : Nat) (s : List T) :
    drawN s.length ⟨s, f, k⟩ = some (s.reverse, ⟨[], f, k⟩) := by
  induction s using List.reverseRecOn with
  | nil => rfl
  | append_singleton s' x ih =>
    have hlen : (s' ++ [x]).length = s'.length + 1 := by simp
    rw [hlen, drawN]
    have hnext : BombGenerator.next ⟨s' ++ [x], f, k⟩ =
        some (x, ⟨s', f, k⟩) := by
      simp [BombGenerator.next, vecPop_concat]
    rw [hnext]
    dsimp only
    rw [ih]
    simp

theorem mem_generate_x_pairs (p : Nat × Nat) :
    p ∈ generate_x_pairs ↔ p.1 < p.2 ∧ p.2 < WIDTH := by
  unfold generate_x_pairs
  rw [List.mem_flatMap]
  constructor
  · rintro ⟨a, ha, hp⟩
    rcases List.mem_map.mp hp with ⟨bb, hb, rfl⟩
    rw [List.mem_range] at ha
    rw [List.mem_range'] at hb
    obtain ⟨i, hi, rfl⟩ := hb
    simp only
    omega
  · rintro ⟨h1, h2⟩
    refine ⟨p.1, List.mem_range.mpr (by omega), ?_⟩
    refine List.mem_map.mpr ⟨p.2, ?_, ?_⟩
    · rw [List.mem_range']
      exact ⟨p.2 - (p.1 + 1), by omega, by omega⟩
    · exact Prod.mk.eta

theorem nodup_generate_x_pairs : generate_x_pairs.Nodup := by decide

/-- C6: drawing `WIDTH·(WIDTH−1)/2 = 28` times from a freshly constructed
uniform-cycle generator (whose bag, after the constructor's shuffle, is
some permutation of `generate_x_pairs`, whatever the seed) succeeds and
yields a duplicate-free list of exactly the unordered pairs of distinct
columns — every such pair exactly once, in some order. -/
theorem uniform_generator_cycle (s : List (Nat × Nat))
    (f : Nat → List (Nat × Nat)) (k : Nat)
    (h : s.Perm generate_x_pairs) :
    drawN (WIDTH * (WIDTH - 1) / 2) (⟨s, f, k⟩ : BombGenerator (Nat × Nat)) =
      some (s.reverse, ⟨[], f, k⟩) ∧
    s.reverse.Perm generate_x_pairs ∧
    s.reverse.length = WIDTH * (WIDTH - 1) / 2 ∧
    s.reverse.Nodup ∧
    (∀ p : Nat × Nat, p ∈ s.reverse ↔ p.1 < p.2 ∧ p.2 < WIDTH) := by
  have hlen : s.length = 28 := by
    rw [h.length_eq]
    decide
  have hperm : s.reverse.Perm generate_x_pairs :=
    (List.reverse_perm s).trans h
  refine ⟨?_, hperm, by simp [hlen]; decide, ?_, ?_⟩
  · have h28 : WIDTH * (WIDTH - 1) / 2 = s.length := by
      rw [hlen]
      decide
    rw [h28]
    exact drawN_all f k s
  · exact hperm.nodup_iff.mpr nodup_generate_x_pairs
  · intro p
    rw [hperm.mem_iff]
    exact mem_generate_x_pairs p

/-- Witness for C6: the identity shuffle (the bag is the enumeration
itself). -/
theorem uniform_generator_cycle_witness :
    generate_x_pairs.Perm generate_x_pairs ∧
    drawN (WIDTH * (WIDTH - 1) / 2)
        (⟨generate_x_pairs, fun _ => generate_x_pairs, 0⟩ :
          BombGenerator (Nat × Nat)) =
      some (generate_x_pairs.reverse, ⟨[], fun _ => generate_x_pairs, 0⟩) :=
  ⟨List.Perm.refl _,
    (uniform_generator_cycle generate_x_pairs (fun _ => generate_x_pairs) 0
      (List.Perm.refl _)).1⟩

/-- `cumulate` from `src/game/mod.rs`: running totals (the iterator `scan`
with an explicit accumulator; the source starts it at 0). -/
def cumulate : Nat → List Nat → List Nat
  | _, [] => []
  | acc, x :: rest => (acc + x) :: cumulate (acc + x) rest

/-- `SpreadBombGenerator` from `src/game/mod.rs`.  The `StdRng` is
abstracted as a stream of raw draws indexed by `rngIdx`;
`rng.gen_range(0..sum)` is modelled as `rng rngIdx % sum` — every value
below `sum` is a possible outcome of the real call and conversely, so the
model ranges over exactly the generator's possible behaviours. -/
structure SpreadBombGenerator where
  rng : Nat → Nat
  rngIdx : Nat
  generated : List Nat

/-- `iter().max().unwrap()` (total: the empty list gives 0 where the
source would panic; the game's array always has `WIDTH = 8` entries). -/
def listMax (l : List Nat) : Nat := l.foldr Nat.max 0

/-- `SpreadBombGenerator::possibility`: weight `1 << (max - count)` per
column. -/
def possibility (g : SpreadBombGenerator) : List Nat :=
  g.generated.map (fun x => 2 ^ (listMax g.generated - x))

/-- The `cumulate ... enumerate ... filter(r < x) ... next()` selection:
first index whose running total exceeds `r`. -/
def selectIndex (weights : List Nat) (r : Nat) : Option Nat :=
  (cumulate 0 weights).findIdx? (fun x => r < x)

/-- `SpreadBombGenerator::next_single`.  The two `unwrap`/panic sites of
the source (`gen_range` on an empty range, `next()` on an empty filter) are
unreachable in the game (weights are positive); the model maps them to
`none`. -/
def SpreadBombGenerator.next_single (g : SpreadBombGenerator) :
    Option (Nat × SpreadBombGenerator) :=
  let poss := possibility g
  let sum := poss.sum
  if sum = 0 then none
  else
    let r := g.rng g.rngIdx % sum
    match selectIndex poss r with
    | none => none
    | some bomb =>
      some (bomb,
        { g with
          rngIdx := g.rngIdx + 1
          generated := g.generated.set bomb (g.generated.getD bomb 0 + 1) })

/-- `SpreadBombGenerator::next_double`: pick `left`, zero its weight,
pick `right` from the rest, bump both counters. -/
def SpreadBombGenerator.next_double (g : SpreadBombGenerator) :
    Option ((Nat × Nat) × SpreadBombGenerator) :=
  let poss := possibility g
  let sum := poss.sum
  if sum = 0 then none
  else
    let r := g.rng g.rngIdx % sum
    match selectIndex poss r with
    | none => none
    | some left =>
      let sum2 := sum - poss.getD left 0
      let poss2 := poss.set left 0
      if sum2 = 0 then none
      else
        let r2 := g.rng (g.rngIdx + 1) % sum2
        match selectIndex poss2 r2 with
        | none => none
        | some right =>
          let gen1 := g.generated.set left (g.generated.getD left 0 + 1)
          some ((left, right),
            { g with
              rngIdx := g.rngIdx + 2
              generated := gen1.set right (gen1.getD right 0 + 1) })

/-- A sequence of `N` single-bomb draws, keeping only the state. -/
def spreadIter : Nat → SpreadBombGenerator → Option SpreadBombGenerator
  | 0, g => some g
  | n + 1, g =>
    match g.next_single with
    | none => none
    | some (_, g') => spreadIter n g'

theorem next_single_zero_stream (M k : Nat) :
    SpreadBombGenerator.next_single
        ⟨fun _ => 0, k, M :: [0, 0, 0, 0, 0, 0, 0]⟩ =
      some (0, ⟨fun _ => 0, k + 1, (M + 1) :: [0, 0, 0, 0, 0, 0, 0]⟩) := by
  have hposs : possibility ⟨fun _ => 0, k, M :: [0, 0, 0, 0, 0, 0, 0]⟩ =
      1 :: [2 ^ M, 2 ^ M, 2 ^ M, 2 ^ M, 2 ^ M, 2 ^ M, 2 ^ M] := by
    simp [possibility, listMax, Nat.sub_self, Nat.sub_zero, Nat.max_zero]
  unfold SpreadBombGenerator.next_single
  rw [hposs]
  have hsumne : (1 :: [2 ^ M, 2 ^ M, 2 ^ M, 2 ^ M, 2 ^ M, 2 ^ M, 2 ^ M]).sum ≠ 0 := by
    simp
  rw [if_neg hsumne]
  dsimp only
  rw [Nat.zero_mod]
  have hsel : selectIndex
      (1 :: [2 ^ M, 2 ^ M, 2 ^ M, 2 ^ M, 2 ^ M, 2 ^ M, 2 ^ M]) 0 = some 0 := by
    simp [selectIndex, cumulate, List.findIdx?_cons]
  rw [hsel]
  simp

theorem spreadIter_zero_stream (N : Nat) :
    ∀ (M k : Nat),
      spreadIter N ⟨fun _ => 0, k, M :: [0, 0, 0, 0, 0, 0, 0]⟩ =
        some ⟨fun _ => 0, k + N, (M + N) :: [0, 0, 0, 0, 0, 0, 0]⟩ := by
  induction N with
  | zero => intro M k; rfl
  | succ n ih =>
    intro M k
    rw [spreadIter, next_single_zero_stream M k]
    dsimp only
    rw [ih (M + 1) (k + 1)]
    have h1 : k + 1 + n = k + (n + 1) := by omega
    have h2 : M + 1 + n = M + (n + 1) := by omega
    rw [h1, h2]

/-- C7 counterexample: the claim — "for every random stream and every N,
after any sequence of N draws the spread between the largest and smallest
per-column placement count is bounded by a constant independent of N" — is
false.  The weighting only biases the choice: the most-used column always
keeps weight `2^0 = 1 > 0`, so the all-zero random stream selects column 0
on every draw, and after N draws the spread is N. -/
theorem spread_not_bounded :
    ¬ ∃ c : Nat, ∀ (rng : Nat → Nat) (N : Nat) (g' : SpreadBombGenerator),
      spreadIter N ⟨rng, 0, List.replicate WIDTH 0⟩ = some g' →
      ∀ a ∈ g'.generated, ∀ b ∈ g'.generated, a - b ≤ c := by
  rintro ⟨c, hc⟩
  have hiter : spreadIter (c + 1)
      ⟨fun _ => 0, 0, List.replicate WIDTH 0⟩ =
      some ⟨fun _ => 0, 0 + (c + 1), (0 + (c + 1)) :: [0, 0, 0, 0, 0, 0, 0]⟩ :=
    spreadIter_zero_stream (c + 1) 0 0
  have happ := hc (fun _ => 0) (c + 1) _ hiter
  have hmema : (0 + (c + 1)) ∈
      ((0 + (c + 1)) :: [0, 0, 0, 0, 0, 0, 0] : List Nat) :=
    List.mem_cons_self _ _
  have hmemb : (0 : Nat) ∈
      ((0 + (c + 1)) :: [0, 0, 0, 0, 0, 0, 0] : List Nat) := by
    simp
  have := happ _ hmema _ hmemb
  omega

/-- C7 amended: what the code does guarantee is the exponential weighting
law — a column's selection weight is `2^(max_count − its_count)`, so a
column whose count is lower than another's gets at least that column's
weight (the least-used columns are exponentially favoured).  No
stream-independent bound on the count spread holds (see the
counterexample): balance is only probabilistic. -/
theorem spread_weight_law (g : SpreadBombGenerator) (i j : Nat)
    (hi : i < g.generated.length) (hj : j < g.generated.length)
    (hle : g.generated.getD i 0 ≤ g.generated.getD j 0) :
    (possibility g).getD i 0 =
      2 ^ (listMax g.generated - g.generated.getD i 0) ∧
    (possibility g).getD j 0 ≤ (possibility g).getD i 0 := by
  have hget : ∀ m : Nat, m < g.generated.length →
      (possibility g).getD m 0 =
        2 ^ (listMax g.generated - g.generated.getD m 0) := by
    intro m hm
    rw [possibility, List.getD_eq_getElem?_getD, List.getElem?_map,
      List.getElem?_eq_getElem hm, List.getD_eq_getElem?_getD,
      List.getElem?_eq_getElem hm]
    rfl
  refine ⟨hget i hi, ?_⟩
  rw [hget i hi, hget j hj]
  exact Nat.pow_le_pow_right (by omega) (by omega)

/-- Witness for the amended C7 at a concrete generator state. -/
theorem spread_weight_law_witness :
    ((0 : Nat) < 2 ∧ (1 : Nat) < 2 ∧
      (SpreadBombGenerator.mk (fun _ => 0) 0 [2, 5]).generated.getD 0 0 ≤
        (SpreadBombGenerator.mk (fun _ => 0) 0 [2, 5]).generated.getD 1 0) ∧
    (possibility (SpreadBombGenerator.mk (fun _ => 0) 0 [2, 5])).getD 1 0 ≤
      (possibility (SpreadBombGenerator.mk (fun _ => 0) 0 [2, 5])).getD 0 0 :=
  ⟨⟨by decide, by decide, by decide⟩,
    (spread_weight_law (SpreadBombGenerator.mk (fun _ => 0) 0 [2, 5]) 0 1
      (by decide) (by decide) (by decide)).2⟩

/-!
## Animation primitives and combinators
(`src/animation.rs`, `src/game/animation.rs`, `crates/client/src/animation.rs`)

`f64` payload fields hold only exactly-representable small values in this
code (integer coordinates, opacities 0/1, expansions 0/1/3), so they are
embedded as `ℚ`.
-/

/-- The three-method `Animation` trait as an explicit method table: a boxed
`dyn Animation<T>` becomes a state of type `σ` together with its `AnimOps`. -/
structure AnimOps (σ τ : Type) where
  advance_frames : Nat → σ → σ
  current_frame : σ → τ
  is_over : σ → Bool

/-- `FloatingCell` from `src/game/animation.rs`. -/
structure FloatingCell where
  id : Nat
  x : ℚ
  y : ℚ
  cell_type : CellType
  opacity : ℚ
deriving DecidableEq

/-- `interpolation` from `src/game/animation.rs`. -/
def interpolation (ft : ℚ × ℚ) (position : ℚ) : ℚ :=
  ft.1 * (1 - position) + ft.2 * position

/-- `CellAnimator` from `src/game/animation.rs`. -/
structure CellAnimator where
  id : Nat
  x : ℚ
  y : ℚ × ℚ
  opacity : ℚ × ℚ
  delay : Nat
  duration : Nat
  elapsed : Nat
  cell_type : CellType
deriving DecidableEq

/-- `CellAnimator::new` (elapsed starts at 0). -/
def CellAnimator.new (id : Nat) (x : ℚ) (y : ℚ × ℚ) (opacity : ℚ × ℚ)
    (delay duration : Nat) (cell_type : CellType) : CellAnimator :=
  ⟨id, x, y, opacity, delay, duration, 0, cell_type⟩

def CellAnimator.advance_frames (frames : Nat) (a : CellAnimator) : CellAnimator :=
  { a with elapsed := a.elapsed + frames }

/-- `saturating_sub` is `Nat` subtraction; the division is exact in every
state the game builds (durations are positive). -/
def CellAnimator.current_frame (a : CellAnimator) : FloatingCell :=
  let relative_time : ℚ :=
    ((min (a.elapsed - a.delay) a.duration : Nat) : ℚ) / (a.duration : ℚ)
  ⟨a.id, a.x, interpolation a.y relative_time, a.cell_type,
    interpolation a.opacity relative_time⟩

def CellAnimator.is_over (a : CellAnimator) : Bool :=
  a.duration + a.delay ≤ a.elapsed

/-- `FloatingParticle` from `src/game/animation.rs`. -/
structure FloatingParticle where
  id : Nat
  color : String
  cell_type : CellType
  x : ℚ
  y : ℚ
  expansion : ℚ
  opacity : ℚ
deriving DecidableEq

/-- `ParticleAnimator` from `src/game/animation.rs`. -/
structure ParticleAnimator where
  id : Nat
  color : String
  cell_type : CellType
  x : ℚ
  y : ℚ
  expansion : ℚ × ℚ
  opacity : ℚ × ℚ
  delay : Nat
  duration : Nat
  elapsed : Nat
deriving DecidableEq

def ParticleAnimator.new (id : Nat) (color : String) (cell_type : CellType)
    (x y : ℚ) (expansion opacity : ℚ × ℚ) (delay duration : Nat) :
    ParticleAnimator :=
  ⟨id, color, cell_type, x, y, expansion, opacity, delay, duration, 0⟩

def ParticleAnimator.advance_frames (frames : Nat) (a : ParticleAnimator) :
    ParticleAnimator :=
  { a with elapsed := a.elapsed + frames }

def ParticleAnimator.current_frame (a : ParticleAnimator) : FloatingParticle :=
  let relative_time : ℚ :=
    ((min (a.elapsed - a.delay) a.duration : Nat) : ℚ) / (a.duration : ℚ)
  ⟨a.id, a.color, a.cell_type, a.x, a.y, interpolation a.expansion relative_time,
    interpolation a.opacity relative_time⟩

def ParticleAnimator.is_over (a : ParticleAnimator) : Bool :=
  a.duration + a.delay ≤ a.elapsed

/-- `NumberAnimator` from `src/game/animation.rs`. -/
structure NumberAnimator where
  target : Nat
  current : Nat
deriving DecidableEq

def NumberAnimator.new (target : Nat) : NumberAnimator := ⟨target, 0⟩

def NumberAnimator.set_target (target : Nat) (a : NumberAnimator) :
    NumberAnimator :=
  { a with target := target }

def NumberAnimator.advance_frames : Nat → NumberAnimator → NumberAnimator
  | 0, a => a
  | n + 1, a =>
    NumberAnimator.advance_frames n
      { a with current := (a.current * 3 + a.target + 3) / 4 }

/-- `Sound` from `src/game/animation.rs`. -/
inductive Sound where
  | Break : Sound
  | Fall : Sound
  | Feed : Sound
  | Stuck : Sound
  | LevelUp : Sound
deriving DecidableEq

/-- Stable insertion into a descending-by-key list (after equal keys). -/
def insertDesc (a : Nat × Sound) : List (Nat × Sound) → List (Nat × Sound)
  | [] => [a]
  | b :: rest => if a.1 ≤ b.1 then b :: insertDesc a rest else a :: b :: rest

/-- `events.sort_by_key(|x| Reverse(x.0))`: stable descending sort. -/
def sortDescByFst (l : List (Nat × Sound)) : List (Nat × Sound) :=
  l.foldl (fun acc a => insertDesc a acc) []

/-- Stable insertion into an ascending-by-key list (after equal keys). -/
def insertAsc (a : Nat × Sound) : List (Nat × Sound) → List (Nat × Sound)
  | [] => [a]
  | b :: rest => if b.1 ≤ a.1 then b :: insertAsc a rest else a :: b :: rest

/-- `sort_by_key(|x| x.0)`: stable ascending sort. -/
def sortAscByFst (l : List (Nat × Sound)) : List (Nat × Sound) :=
  l.foldl (fun acc a => insertAsc a acc) []

def dedupFrom (k : Nat) : List (Nat × Sound) → List (Nat × Sound)
  | [] => []
  | b :: rest => if b.1 = k then dedupFrom k rest else b :: dedupFrom b.1 rest

/-- `dedup_by_key(|x| x.0)`: drop consecutive entries with a repeated key,
keeping the first of each run. -/
def dedupByFst : List (Nat × Sound) → List (Nat × Sound)
  | [] => []
  | a :: rest => a :: dedupFrom a.1 rest

/-- `SoundPlayer` from `src/game/animation.rs`: `events` is kept sorted
descending by trigger offset (popped from the end), `current` is the
drained ready buffer (a `RefCell` in the source; modelled by returning the
post-read state from `current_frame`). -/
structure SoundPlayer where
  frames_elapsed : Nat
  events : List (Nat × Sound)
  current : List Sound
deriving DecidableEq

/-- The pop-from-the-end drain loop, phrased over the reversed (ascending)
event list: take every leading event whose offset has been reached. -/
def drainAsc (elapsed : Nat) : List (Nat × Sound) →
    List (Nat × Sound) × List Sound
  | [] => ([], [])
  | (t, s) :: rest =>
    if t ≤ elapsed then
      let r := drainAsc elapsed rest
      (r.1, s :: r.2)
    else ((t, s) :: rest, [])

def SoundPlayer.advance_frames (frames : Nat) (p : SoundPlayer) : SoundPlayer :=
  let elapsed := p.frames_elapsed + frames
  let r := drainAsc elapsed p.events.reverse
  ⟨elapsed, r.1.reverse, p.current ++ r.2⟩

/-- `SoundPlayer::new`: sort descending, then `advance_frames(0)` to drain
offset-0 cues. -/
def SoundPlayer.new (events : List (Nat × Sound)) : SoundPlayer :=
  SoundPlayer.advance_frames 0 ⟨0, sortDescByFst events, []⟩

/-- `current_frame` takes the ready buffer (single-consumer drain). -/
def SoundPlayer.current_frame (p : SoundPlayer) : List Sound × SoundPlayer :=
  (p.current, { p with current := [] })

def SoundPlayer.is_over (p : SoundPlayer) : Bool :=
  p.events.isEmpty && p.current.isEmpty

/-- One element of the game's animation stream:
`Animator::new(cell_animators).zip(SoundPlayer::new(sounds))` — the
parallel group of `CellAnimator`s zipped with a `SoundPlayer`. -/
structure CellBatch where
  cells : List CellAnimator
  sounds : SoundPlayer
deriving DecidableEq

def CellBatch.advance_frames (frames : Nat) (b : CellBatch) : CellBatch :=
  ⟨b.cells.map (CellAnimator.advance_frames frames),
    SoundPlayer.advance_frames frames b.sounds⟩

/-- `Animator::is_over` is "all children over"; `zip` is over when both
sides are. -/
def CellBatch.is_over (b : CellBatch) : Bool :=
  b.cells.all CellAnimator.is_over && b.sounds.is_over

/-- `AnimationStream` (serial queue) from `crates/client/src/animation.rs`,
specialised to the game's batch payload. -/
structure AnimationStream where
  animations : List CellBatch
deriving DecidableEq

/-- `AnimationStream::push`: an already-over animation is rejected. -/
def AnimationStream.push (st : AnimationStream) (b : CellBatch) :
    AnimationStream :=
  if b.is_over then st else ⟨st.animations ++ [b]⟩

def AnimationStream.is_over (st : AnimationStream) : Bool :=
  st.animations.isEmpty

/-- `AnimationStream::advance_frames`: one frame at a time to the head,
discarding it as soon as it reports over. -/
def AnimationStream.advance_frames : Nat → AnimationStream → AnimationStream
  | 0, st => st
  | n + 1, st =>
    match st.animations with
    | [] => st
    | b :: rest =>
      let b' := CellBatch.advance_frames 1 b
      if b'.is_over then AnimationStream.advance_frames n ⟨rest⟩
      else AnimationStream.advance_frames n ⟨b' :: rest⟩

/-- `EndlessAnimator` (unbounded pool) from `src/animation.rs` and
`crates/client/src/animation.rs`. -/
structure EndlessAnimator (σ : Type) where
  animations : List σ

/-- `EndlessAnimator::new` stores the input reversed. -/
def EndlessAnimator.new {σ : Type} (l : List σ) : EndlessAnimator σ :=
  ⟨l.reverse⟩

def EndlessAnimator.push {σ : Type} (e : EndlessAnimator σ) (a : σ) :
    EndlessAnimator σ :=
  ⟨e.animations ++ [a]⟩

/-- advance all members, then prune (`retain`) the finished ones. -/
def EndlessAnimator.advance_frames {σ τ : Type} (ops : AnimOps σ τ)
    (frames : Nat) (e : EndlessAnimator σ) : EndlessAnimator σ :=
  ⟨(e.animations.map (ops.advance_frames frames)).filter
    (fun a => !ops.is_over a)⟩

def EndlessAnimator.current_frame {σ τ : Type} (ops : AnimOps σ τ)
    (e : EndlessAnimator σ) : List τ :=
  e.animations.map ops.current_frame

/-- `EndlessAnimator::is_over` is hard-coded `true` in both revisions of
the source. -/
def EndlessAnimator.is_over {σ : Type} (_ : EndlessAnimator σ) : Bool := true

/-- The method table of `ParticleAnimator` (the pool's payload in the game). -/
def particleOps : AnimOps ParticleAnimator FloatingParticle :=
  ⟨ParticleAnimator.advance_frames, ParticleAnimator.current_frame,
    ParticleAnimator.is_over⟩

/-- C8 counterexample: the claim says the pool's `is_over` never indicates
completion, but the source hard-codes it to `true`.  Here a pool holding a
live, unfinished particle (its own `is_over` is `false` — 10 frames of
duration remain) still answers `true`, i.e. "already finished", to the
scheduling contract. -/
theorem endless_is_over_counterexample :
    ParticleAnimator.is_over
      (ParticleAnimator.new 0 "#FFFFFF" CellType.Tile 0 0 (0, 1) (1, 0) 0 10)
      = false ∧
    EndlessAnimator.is_over
      (⟨[ParticleAnimator.new 0 "#FFFFFF" CellType.Tile 0 0 (0, 1) (1, 0) 0 10]⟩ :
        EndlessAnimator ParticleAnimator) = true :=
  ⟨rfl, rfl⟩

/-- C8 amended: `is_over` on the unbounded pool always returns `true`,
regardless of its contents (live animations included) — under the
scheduling contract it reports itself as already done, so it conveys no
completion information and must be host-managed rather than chained. -/
theorem endless_is_over_always {σ : Type} (e : EndlessAnimator σ) :
    EndlessAnimator.is_over e = true := rfl

/-!
## Game controller (`src/game/mod.rs`)
-/

/-- `PARTICLE_COLORS` from `src/game/mod.rs`. -/
def PARTICLE_COLORS : List String :=
  ["#FF0000", "#FF8800", "#FFFF00", "#00FF00", "#00FFFF", "#0000FF", "#FF00FF"]

/-- `VisibleState` from `src/game/mod.rs`. -/
inductive VisibleState where
  | Visible : VisibleState
  | Invisible : VisibleState
  | InvisibleWhileAnimation : VisibleState
deriving DecidableEq

/-- `FloatAnimator` from `src/animation.rs`, minus the `begin_at`
wall-clock timestamp: it is captured at construction and read only by
`animate()`, which converts real elapsed time into virtual frames — real
time is outside this embedding, and none of the operations verified here
touch it.  The cumulative virtual-frame counter and the wrapped animation
are kept. -/
structure FloatAnimator (α : Type) where
  elapsed_frames : Nat
  animation : α

/-- `Board::is_filled` as used by `AnimatedBoard`
(`x.first().cloned().flatten().is_some()` on any column). -/
def Board.is_filled (b : Board) : Bool :=
  b.cells.any (fun col => (col.head?.join).isSome)

/-- `AnimatedBoard` from `src/game/mod.rs` (the `Rc<RefCell<…>>` shared
cells become plain fields: single-threaded interior mutability). -/
structure AnimatedBoard where
  board : Board
  visible : VisibleState
  animator : FloatAnimator AnimationStream
  particles : FloatAnimator (EndlessAnimator ParticleAnimator)

def AnimatedBoard.is_filled (ab : AnimatedBoard) : Bool :=
  ab.board.is_filled

def AnimatedBoard.is_animating (ab : AnimatedBoard) : Bool :=
  !ab.animator.animation.is_over

/-- The repeated `cells.iter().enumerate().flat_map(… cell.map(…))`
pattern: one animator per occupied slot, in column-major order. -/
def perCellAnimators (cells : Grid) (f : Nat → Nat → Cell → CellAnimator) :
    List CellAnimator :=
  cells.enum.flatMap
    (fun p => p.2.enum.filterMap (fun q => q.2.map (f p.1 q.1)))

/-- `AnimatedBoard::feed`: feed the board, then enqueue the slide-up
animation of every cell of the new board zipped with the feed sound (plus
the stuck sound when the board is filled). -/
def AnimatedBoard.feed (ab : AnimatedBoard) (row : List CellType) :
    AnimatedBoard :=
  let board' := (ab.board.feed row).2
  let visible : Bool := ab.visible = VisibleState.Visible
  let feed_animation := perCellAnimators board'.cells
    (fun x y cell =>
      let opacity : ℚ :=
        if !visible && cell.cell_type = CellType.Tile then 0 else 1
      CellAnimator.new cell.id (x : ℚ) (((y : ℚ) + 1), (y : ℚ))
        (opacity, opacity) 0 10 cell.cell_type)
  let feed_sounds :=
    if board'.is_filled then [(3, Sound.Feed), (10, Sound.Stuck)]
    else [(3, Sound.Feed)]
  { ab with
    board := board'
    animator := { ab.animator with
      animation := ab.animator.animation.push
        ⟨feed_animation, SoundPlayer.new feed_sounds⟩ } }

/-- `AnimatedBoard::remove`: run the chain removal; when nothing was
removed return `(0, 0)` at once (nothing else changes).  Otherwise push one
particle per removed cell into the endless pool, enqueue the removal
animation batch (current cells held for 1 frame, removed cells fading out
staggered by blast distance) zipped with the deduplicated break sounds, and
return the removal and bomb counts. -/
def AnimatedBoard.remove (ab : AnimatedBoard) (x y : Nat) :
    (Nat × Nat) × AnimatedBoard :=
  let r := Board.remove WIDTH HEIGHT ab.board x y
  let dists := r.1
  let board' := r.2
  if dists.isEmpty then ((0, 0), { ab with board := board' })
  else
    let visible : Bool := ab.visible = VisibleState.Visible
    let particles' := dists.foldl
      (fun e t =>
        let cfg := match t.cell_type with
          | CellType.Bomb =>
            (PARTICLE_COLORS.getD (t.dist % 7) "", ((0 : ℚ), (3 : ℚ)), 40)
          | CellType.Tile => ("#FFFFFF", ((0 : ℚ), (1 : ℚ)), 10)
        e.push (ParticleAnimator.new (t.id + 1000000) cfg.1 t.cell_type
          (t.x : ℚ) (t.y : ℚ) cfg.2.1 (1, 0) (t.dist * 3) cfg.2.2))
      ab.particles.animation
    let remove_animation := perCellAnimators board'.cells
      (fun cx cy cell =>
        let opacity : ℚ :=
          if !visible && cell.cell_type = CellType.Tile then 0 else 1
        CellAnimator.new cell.id (cx : ℚ) ((cy : ℚ), (cy : ℚ))
          (opacity, opacity) 0 1 cell.cell_type) ++
      dists.map (fun t =>
        CellAnimator.new t.id (t.x : ℚ) ((t.y : ℚ), (t.y : ℚ)) (1, 0)
          (t.dist * 3) 10 t.cell_type)
    let remove_sounds := dedupByFst (sortAscByFst (dists.filterMap
      (fun t =>
        if t.cell_type = CellType.Bomb ∨ t.dist = 0 then
          some (t.dist * 3, Sound.Break)
        else none)))
    let bombs := (dists.filter (fun t => t.cell_type = CellType.Bomb)).length
    ((dists.length, bombs),
      { ab with
        board := board'
        animator := { ab.animator with
          animation := ab.animator.animation.push
            ⟨remove_animation, SoundPlayer.new remove_sounds⟩ }
        particles := { ab.particles with animation := particles' } })

def insertUnique (a : Nat) : List Nat → List Nat
  | [] => [a]
  | b :: rest =>
    if a = b then b :: rest
    else if a < b then a :: b :: rest
    else b :: insertUnique a rest

/-- The `BTreeSet` of fall distances: sorted, duplicate-free. -/
def toSortedSet (l : List Nat) : List Nat :=
  l.foldl (fun acc a => insertUnique a acc) []

/-- `AnimatedBoard::apply_gravity`: settle the board and enqueue the fall
animation (each cell sliding from its old row) zipped with one fall sound
per distinct fall distance. -/
def AnimatedBoard.apply_gravity (ab : AnimatedBoard) : AnimatedBoard :=
  let r := Board.apply_gravity HEIGHT ab.board
  let dists := r.1
  let board' := r.2
  let visible : Bool := ab.visible = VisibleState.Visible
  let fall_animation := perCellAnimators board'.cells
    (fun x y cell =>
      let dist := (dists.lookup cell.id).getD 0
      let opacity : ℚ :=
        if !visible && cell.cell_type = CellType.Tile then 0 else 1
      CellAnimator.new cell.id (x : ℚ) (((y - dist : Nat) : ℚ), (y : ℚ))
        (opacity, opacity) 0 (dist * 5 + 1) cell.cell_type)
  let fall_sounds := (toSortedSet (dists.map Prod.snd)).map
    (fun d => (d * 5 + 1, Sound.Fall))
  { ab with
    board := board'
    animator := { ab.animator with
      animation := ab.animator.animation.push
        ⟨fall_animation, SoundPlayer.new fall_sounds⟩ } }

/-- `Game` from `src/game/mod.rs`. -/
structure Game where
  board : AnimatedBoard
  generator : BombGenerator (Nat × Nat)
  score : Nat
  bombs_removed : Nat
  bombs_limit : Nat
  score_animator : FloatAnimator NumberAnimator

def Game.is_over (g : Game) : Bool :=
  g.board.is_filled || (g.bombs_limit ≤ g.bombs_removed)

/-- `Game::next_row`: a tile row with two bombs at the drawn column pair.
The generator's `next` cannot actually fail (the bag refills from the
nonempty `generate_x_pairs`); the unreachable case feeds a plain row. -/
def Game.next_row (g : Game) : List CellType × Game :=
  match g.generator.next with
  | some (bombs, gen') =>
    (((List.replicate WIDTH CellType.Tile).set bombs.1 CellType.Bomb).set
        bombs.2 CellType.Bomb,
      { g with generator := gen' })
  | none => (List.replicate WIDTH CellType.Tile, g)

/-- The `GameAction::Remove(x, y)` arm of `Game::reduce`.  `fresh` stands
for the `Game::new()` built on the game-over restart path (its random seed
comes from the host and is outside the embedding); the other two arms,
`Feed` and `Animate`, drive the wall-clock adapter and are not part of this
claim. -/
def Game.reduceRemove (fresh : Game) (g : Game) (x y : Nat) : Game :=
  if g.is_over then
    if !g.board.is_animating then
      let r := fresh.next_row
      { r.2 with board := r.2.board.feed r.1 }
    else g
  else
    let r := g.board.remove x y
    let removed_cells := r.1.1
    let removed_bombs := r.1.2
    let g1 := { g with board := r.2 }
    if 0 < removed_cells then
      let score' := g1.score + (removed_cells + 1) * removed_cells / 2
      let g2 := { g1 with
        score := score'
        score_animator := { g1.score_animator with
          animation := NumberAnimator.set_target score'
            g1.score_animator.animation }
        bombs_removed := g1.bombs_removed + removed_bombs }
      let g3 := { g2 with board := g2.board.apply_gravity }
      let r2 := g3.next_row
      { r2.2 with board := r2.2.board.feed r2.1 }
    else g1

theorem remove_nil_board (W H : Nat) (b : Board) (x y : Nat)
    (h : (Board.remove W H b x y).1 = []) :
    (Board.remove W H b x y).2 = b := by
  cases hget : getCell b.cells x y with
  | none => rw [remove_absent_aux W H b x y hget]
  | some c =>
    exfalso
    unfold Board.remove at h
    have h9 : 9 * gridSize b.cells + 9 = (9 * gridSize b.cells + 8) + 1 := rfl
    rw [h9, removeLoop, hget] at h
    simp at h

/-- C10: a `Remove` action whose chain removal deletes zero cells leaves
the whole game state unchanged: board, score, bombs-removed count, the
score animator's target, the animation stream and the particle pool are
all exactly as before — no gravity pass, no new row, no animation or sound
enqueued (`AnimatedBoard::remove` returns before building any of them). -/
theorem reduce_remove_empty_noop (fresh g : Game) (x y : Nat)
    (hover : g.is_over = false)
    (hempty : (Board.remove WIDTH HEIGHT g.board.board x y).1 = []) :
    Game.reduceRemove fresh g x y = g := by
  have hrem : AnimatedBoard.remove g.board x y = ((0, 0), g.board) := by
    have hb := remove_nil_board WIDTH HEIGHT g.board.board x y hempty
    unfold AnimatedBoard.remove
    rw [show Board.remove WIDTH HEIGHT g.board.board x y = ([], g.board.board)
      from Prod.ext hempty hb]
    rfl
  unfold Game.reduceRemove
  rw [hover]
  simp only [Bool.false_eq_true, if_false]
  rw [hrem]
  rfl

/-- A concrete quiet game state: empty 8×9 board, fresh counters. -/
def exampleGame : Game :=
  ⟨⟨Board.mk (List.replicate 8 (List.replicate 9 none)) 0,
      VisibleState.Visible, ⟨0, ⟨[]⟩⟩, ⟨0, ⟨[]⟩⟩⟩,
    ⟨generate_x_pairs, fun _ => generate_x_pairs, 0⟩,
    0, 0, 999, ⟨0, ⟨0, 0⟩⟩⟩

/-- Witness for C10: removing at (0, 0) on the empty board removes
nothing, and the reducer returns the state unchanged. -/
theorem reduce_remove_empty_noop_witness :
    exampleGame.is_over = false ∧
    (Board.remove WIDTH HEIGHT exampleGame.board.board 0 0).1 = [] ∧
    Game.reduceRemove exampleGame exampleGame 0 0 = exampleGame :=
  ⟨by decide, by decide,
    reduce_remove_empty_noop exampleGame exampleGame 0 0 (by decide) (by decide)⟩

end Exploded
